import Mathlib

/-!
# crypto_aes.c: the AES-128 / HMAC cipher suite of tcpcryptd

A shallow embedding of `user/src/crypto_aes.c` and theorems about it.

Conventions of the embedding.

* Memory is a list of bytes (`List Nat`); a pointer is an offset into such a list.
* The host byte order is a parameter (`ByteOrder`): the file reads and writes
  multi-byte integers through pointer casts, so its results depend on it.
* The OpenSSL block primitive (`EVP_aes_128_ecb` behind `EVP_EncryptInit` and
  `EVP_EncryptUpdate`) and the nested HMAC suite reached through `crypto_*`
  wrappers are parameters (`Primitive`, `SubAuth`).
* A call that does not return (failed `assert`, `errssl(1, ..)`, an access the
  C standard leaves undefined) is an `Except.error` carrying a `Fault`.
* `int len` is a natural number: the arithmetic on `len` and `blen` is the
  arithmetic of C on every non-negative `int` for which `blen` still fits.
* `tc_csum` is an unsigned 32-bit accumulator, every `+=` is taken modulo `2^32`.
-/

namespace TcpCrypt

/-! ## Definitions -/

/-- Cipher block length in bytes: `#define BLEN 16`. -/
def BLEN : Nat := 16

/-- Length of the MAC tag in bytes: `#define MAC_LEN 20`. -/
def MAC_LEN : Nat := 20

/-- Ways in which a call ends without returning to its caller. -/
inductive Fault where
  /-- An `assert(..)` failed. -/
  | assertion
  /-- The primitive reported failure and `errssl(1, ..)` ended the process. -/
  | fatal
  /-- The call touches memory it must not: a null or released block, a
  cipher context that was never keyed, bytes beyond a buffer. -/
  | undefined
  deriving DecidableEq, Repr

/-- Byte order of the host the daemon runs on. -/
inductive ByteOrder where
  | little
  | big
  deriving DecidableEq, Repr

/-- Value of a byte string read least significant byte first. -/
def leVal : List Nat → Nat
  | [] => 0
  | b :: bs => b + 256 * leVal bs

/-- The `n` low bytes of `x`, least significant byte first. -/
def leBytes : Nat → Nat → List Nat
  | 0, _ => []
  | n + 1, x => x % 256 :: leBytes n (x / 256)

/-- Integer read through a pointer cast from the bytes `bs`. -/
def load (o : ByteOrder) (bs : List Nat) : Nat :=
  match o with
  | .little => leVal bs
  | .big => leVal bs.reverse

/-- Bytes written when the `n`-byte integer `x` is stored through a pointer cast. -/
def store (o : ByteOrder) (n x : Nat) : List Nat :=
  match o with
  | .little => leBytes n x
  | .big => (leBytes n x).reverse

/-- Reversal of the eight bytes of a 64-bit value. -/
def bswap64 (x : Nat) : Nat := leVal (leBytes 8 x).reverse

/-- Reversal of the four bytes of a 32-bit value. -/
def bswap32 (x : Nat) : Nat := leVal (leBytes 4 x).reverse

/-- Modelled from the spec: `xhtobe64` is declared outside `crypto_aes.c`. The
spec calls the sequence value an 8-byte big-endian number, so the helper
converts a 64-bit value from host order to big-endian: nothing on a
big-endian host, a byte reversal on a little-endian one. -/
def xhtobe64 (o : ByteOrder) (x : Nat) : Nat :=
  match o with
  | .big => x % 2 ^ 64
  | .little => bswap64 x

/-- Modelled from the spec: `xbe64toh` is declared outside `crypto_aes.c`; the
inverse conversion of `xhtobe64`, from big-endian to host order. -/
def xbe64toh (o : ByteOrder) (x : Nat) : Nat :=
  match o with
  | .big => x % 2 ^ 64
  | .little => bswap64 x

/-- The libc `htonl`: a 32-bit value from host order to network (big-endian) order. -/
def htonl (o : ByteOrder) (x : Nat) : Nat :=
  match o with
  | .big => x % 2 ^ 32
  | .little => bswap32 x

/-- The expression `x & ~0xf` on a non-negative value: the low four bits cleared. -/
def clearLow4 (x : Nat) : Nat := x - (x &&& 0xf)

/-- Modelled from the spec: the field `tc_csum` of `struct tc` is declared
outside `crypto_aes.c`. The spec has it as the running sum that is folded to a
16-bit Internet checksum later; it is taken as an unsigned 32-bit accumulator,
and this is the addition `tc->tc_csum += x`. -/
def add32 (a b : Nat) : Nat := (a + b) % 2 ^ 32

/-- The OpenSSL primitive behind `EVP_aes_128_ecb()`, as far as this file uses
it. `K` is the keyed state an `EVP_CIPHER_CTX` holds after `EVP_EncryptInit`. -/
structure Primitive (K : Type) where
  /-- Result of `EVP_EncryptInit(ctx, EVP_aes_128_ecb(), key, NULL)`: the keyed
  state, or `none` when the call returns 0. -/
  init : List Nat → Option K
  /-- Encryption of one 16-byte block under the keyed state. -/
  encryptBlock : K → List Nat → List Nat
  /-- A block is encrypted to a block. -/
  encryptBlock_length : ∀ k b, (encryptBlock k b).length = 16
  /-- Whether `EVP_EncryptUpdate` on this input returns non-zero. -/
  updateOk : K → List Nat → Bool

/-- Electronic-codebook pass over the first `n` 16-byte blocks of `buf`. -/
def ecb (f : List Nat → List Nat) : Nat → List Nat → List Nat
  | 0, _ => []
  | n + 1, buf => f (buf.take 16) ++ ecb f n (buf.drop 16)

/-- The call `EVP_EncryptUpdate(ctx, out, &i, in, inl)` with `inl` a multiple
of the block length: the bytes written to `out` (their number is what the call
stores in `i`), or `none` when the call returns 0. -/
def EVP_EncryptUpdate {K : Type} (P : Primitive K) (k : K) (buf : List Nat) (inl : Nat) :
    Option (List Nat) :=
  if P.updateOk k buf then some (ecb (P.encryptBlock k) (inl / 16) buf) else none

/-- The private block `struct aes_priv`. `S` is the state of the nested HMAC
suite that `ap_hmac` points to. -/
structure AesPriv (K S : Type) where
  /-- Bulk cipher context; `none` until a key is installed. -/
  ap_ctx : Option K
  /-- Ack-authentication cipher context; `none` until a key is installed. -/
  ap_mac : Option K
  /-- The nested MAC context; `none` is the null pointer. -/
  ap_hmac : Option S

/-- The part of `struct tc` this file touches. -/
structure Tc (K S : Type) where
  /-- Running checksum accumulator. -/
  tc_csum : Nat
  /-- What `crypto_priv(tc)` returns; `none` is the null pointer. -/
  priv : Option (AesPriv K S)

/-- Scratch size `blen` computed by `do_aes` from `rem` and `len`. -/
def scratchLen (rem len : Nat) : Nat :=
  let blen := clearLow4 len
  let blen := if rem ≠ 0 then blen + BLEN else blen
  let drem := len &&& 0xf
  if drem ≠ 0 ∧ (drem > 16 - rem ∨ rem = 0) then blen + BLEN else blen

/-- The loop "fill blocks with counter values": `n` iterations, each storing
the 64-bit words `0` and `ctr` and then adding `inc` to `ctr`. -/
def fillBlocks (o : ByteOrder) (inc : Nat) : Nat → Nat → List Nat
  | 0, _ => []
  | n + 1, ctr => store o 8 0 ++ store o 8 ctr ++ fillBlocks o inc n ((ctr + inc) % 2 ^ 64)

/-- The byte operation `*pd2 ^= *pb2`, with `pd2` at offset `p` of `data` and
`pb2` at offset `q` of `blocks`. -/
def xor1 (data blocks : List Nat) (p q : Nat) : List Nat :=
  data.set p (data.getD p 0 ^^^ blocks.getD q 0)

/-- XOR of `n` consecutive bytes of `blocks` from offset `q` into `data` from
offset `p`. For `n = 4` this is the word operation `*pd ^= *pb`: the XOR of two
32-bit words is the XOR of their bytes, position by position. -/
def xorBytes (blocks : List Nat) : Nat → List Nat → Nat → Nat → List Nat
  | 0, data, _, _ => data
  | n + 1, data, p, q => xorBytes blocks n (xor1 data blocks p q) (p + 1) (q + 1)

/-- The read `*csum` of a `uint16_t` at byte offset `c` of `data`. -/
def load16 (o : ByteOrder) (data : List Nat) (c : Nat) : Nat :=
  load o [data.getD c 0, data.getD (c + 1) 0]

/-- The value of `i` after `i = 0; *((uint8_t*) &i) = b`: the byte `b` placed
in the first byte in memory of a zeroed 32-bit `int`. -/
def oddInt (o : ByteOrder) (b : Nat) : Nat :=
  load o [b, 0, 0, 0]

/-- The local variables of `do_aes` during the XOR loops. -/
structure Cursor where
  /-- Contents of the caller's span. -/
  data : List Nat
  /-- The accumulator `tc->tc_csum`. -/
  tc_csum : Nat
  /-- Bytes still to do (`len`). -/
  len : Nat
  /-- Offset of `pd` / `pd2` in `data`. -/
  pd : Nat
  /-- Offset of `pb` / `pb2` in `blocks`. -/
  pb : Nat
  /-- Offset of `csum` in `data`. -/
  csum : Nat
  /-- The flag `i` of the byte loop ("unsummed"). -/
  i : Nat

/-- One iteration of `while (len >= 4)`. -/
def wordStep (o : ByteOrder) (blocks : List Nat) (s : Cursor) : Cursor :=
  let data := xorBytes blocks 4 s.data s.pd s.pb
  let c1 := add32 s.tc_csum (load16 o data s.csum)
  let c2 := add32 c1 (load16 o data (s.csum + 2))
  { s with data := data, tc_csum := c2, len := s.len - 4, pd := s.pd + 4, pb := s.pb + 4,
           csum := s.csum + 4 }

/-- The loop `while (len >= 4)`, at most `fuel` iterations. -/
def wordLoop (o : ByteOrder) (blocks : List Nat) : Nat → Cursor → Cursor
  | 0, s => s
  | fuel + 1, s => if 4 ≤ s.len then wordLoop o blocks fuel (wordStep o blocks s) else s

/-- One iteration of `while (len > 0)`. -/
def byteStep (o : ByteOrder) (blocks : List Nat) (s : Cursor) : Cursor :=
  let data := xor1 s.data blocks s.pd s.pb
  if s.i = 1 then
    { s with data := data, len := s.len - 1, pd := s.pd + 1, pb := s.pb + 1,
             tc_csum := add32 s.tc_csum (load16 o data s.csum), csum := s.csum + 2, i := 0 }
  else
    { s with data := data, len := s.len - 1, pd := s.pd + 1, pb := s.pb + 1, i := s.i + 1 }

/-- The loop `while (len > 0)`, at most `fuel` iterations. -/
def byteLoop (o : ByteOrder) (blocks : List Nat) : Nat → Cursor → Cursor
  | 0, s => s
  | fuel + 1, s => if 0 < s.len then byteLoop o blocks fuel (byteStep o blocks s) else s

/-- The block "sum odd byte". -/
def oddStep (o : ByteOrder) (s : Cursor) : Cursor :=
  if s.i ≠ 0 then { s with i := 0, tc_csum := add32 s.tc_csum (oddInt o (s.data.getD s.csum 0)) }
  else s

/-- The function `do_aes(tc, iv, data, len, enc)`. `data` is the memory from the
pointer `data` on; the result is the new `tc` and the new contents of that
memory. Each loop gets as fuel the value of `len` it starts with, which it
cannot exhaust: every iteration lowers `len`. -/
def do_aes {K S : Type} (o : ByteOrder) (P : Primitive K) (tc : Tc K S) (iv data : List Nat)
    (len : Nat) (_enc : Nat) : Except Fault (Tc K S × List Nat) :=
  let inc := xhtobe64 o 1
  -- assert(len)
  if len = 0 then .error .assertion else
  -- figure out counter value and remainder
  let ctr := xbe64toh o (load o (iv.take 8))
  let rem := ctr &&& 0xf
  let ctr := clearLow4 ctr
  -- xhtobe64(ctr): the value is computed and dropped
  let blen := scratchLen rem len
  let blocks := fillBlocks o inc (blen >>> 4) ctr
  -- do AES
  match tc.priv.bind (fun ap => ap.ap_ctx) with
  | none => .error .undefined
  | some k =>
    match EVP_EncryptUpdate P k blocks blen with
    | none => .error .fatal
    | some blocks =>
      -- assert(i == blen)
      if blocks.length ≠ blen then .error .assertion else
      -- the loops below read and write data[0 .. len)
      if data.length < len then .error .undefined else
      -- XOR data (and checksum)
      let s := wordLoop o blocks len
        { data := data, tc_csum := tc.tc_csum, len := len, pd := 0, pb := rem, csum := 0, i := 0 }
      -- XOR any remainder
      let s := byteLoop o blocks s.len { s with i := 0 }
      -- assert(pb2 - blocks <= blen); assert(blen - (pb2 - blocks) < 16)
      if ¬ s.pb ≤ blen then .error .assertion else
      if ¬ blen - s.pb < 16 then .error .assertion else
      -- sum odd byte
      let s := oddStep o s
      .ok ({ tc with tc_csum := s.tc_csum }, s.data)

/-- Sum of `m` consecutive host-order 16-bit words of `data` from byte offset `p`. -/
def wordsFrom (o : ByteOrder) (data : List Nat) : Nat → Nat → Nat
  | 0, _ => 0
  | m + 1, p => load16 o data p + wordsFrom o data m (p + 2)

/-- Checksum contribution of the first `len` bytes of `out`: its `len / 2`
host-order 16-bit words and, for odd `len`, the last byte as `oddInt` places it. -/
def csumAdded (o : ByteOrder) (out : List Nat) (len : Nat) : Nat :=
  wordsFrom o out (len / 2) 0 + (if len % 2 = 1 then oddInt o (out.getD (len - 1) 0) else 0)

/-- The keystream `do_aes` uses for the sequence bytes `iv` and length `len`
under the keyed state `k`: the scratch buffer after the block cipher ran over it. -/
def keystream {K : Type} (o : ByteOrder) (P : Primitive K) (k : K) (iv : List Nat) (len : Nat) :
    List Nat :=
  let ctr := xbe64toh o (load o (iv.take 8))
  let blen := scratchLen (ctr &&& 0xf) len
  ecb (P.encryptBlock k) (blen / 16) (fillBlocks o (xhtobe64 o 1) (blen >>> 4) (clearLow4 ctr))

/-- The offset `rem` at which `do_aes` starts to read the keystream. -/
def seqRem (o : ByteOrder) (iv : List Nat) : Nat :=
  xbe64toh o (load o (iv.take 8)) &&& 0xf

/-- The counter `do_aes` starts from: the sequence value with its low four bits cleared. -/
def seqCtr (o : ByteOrder) (iv : List Nat) : Nat :=
  clearLow4 (xbe64toh o (load o (iv.take 8)))

/-- The function `aes_encrypt(tc, iv, data, len)`. -/
def aes_encrypt {K S : Type} (o : ByteOrder) (P : Primitive K) (tc : Tc K S) (iv data : List Nat)
    (len : Nat) : Except Fault (Tc K S × List Nat) :=
  do_aes o P tc iv data len 1

/-- The function `aes_decrypt(tc, iv, data, len)`; the last component is the
returned `int`. -/
def aes_decrypt {K S : Type} (o : ByteOrder) (P : Primitive K) (tc : Tc K S) (iv data : List Nat)
    (len : Nat) : Except Fault (Tc K S × List Nat × Nat) :=
  match do_aes o P tc iv data len 0 with
  | .error e => .error e
  | .ok (tc, data) => .ok (tc, data, len)

/-- A stand-in block function for evaluating the model: every byte of the block
is XORed with the first key byte and with `0x5c`. It is a bijection on blocks. -/
def toyBlock (k : List Nat) (b : List Nat) : List Nat :=
  ((b ++ List.replicate 16 0).take 16).map (fun x => (x ^^^ k.headD 0 ^^^ 0x5c) % 256)

/-- A stand-in primitive for evaluating the model: the keyed state is the key,
the block function is `toyBlock`, no call fails. -/
def toyPrimitive : Primitive (List Nat) where
  init := fun key => some key
  encryptBlock := toyBlock
  encryptBlock_length := by intro k b; simp [toyBlock]
  updateOk := fun _ _ => true

/-- A context keyed with `key`, with accumulator `c` and no nested MAC state. -/
def keyedTc (key : List Nat) (c : Nat) : Tc (List Nat) Unit :=
  { tc_csum := c, priv := some { ap_ctx := some key, ap_mac := none, ap_hmac := none } }

/-- Data part of a transform result, `none` on a fault. -/
def dataOf {α : Type} (r : Except Fault (α × List Nat)) : Option (List Nat) :=
  match r with
  | .ok (_, d) => some d
  | .error _ => none

/-- Accumulator part of a transform result, `none` on a fault. -/
def csumOf {K S : Type} (r : Except Fault (Tc K S × List Nat)) : Option Nat :=
  match r with
  | .ok (tc, _) => some tc.tc_csum
  | .error _ => none

/-- The 8-byte big-endian encoding of the sequence value `S`, as the caller
hands it to the transform through `iv`. -/
def ivOfSeq (S : Nat) : List Nat := (leBytes 8 S).reverse

/-- Two transform calls on one span: the first `L1` bytes with sequence `S`,
then the following `L2` bytes with sequence `S + L1`. The result is the span
after both calls, `none` when a call faults. -/
def twoCalls {K S : Type} (o : ByteOrder) (P : Primitive K) (tc : Tc K S) (seq : Nat)
    (data : List Nat) (L1 L2 : Nat) : Option (List Nat) :=
  match aes_encrypt o P tc (ivOfSeq seq) data L1 with
  | .error _ => none
  | .ok (tc1, d1) =>
    match aes_encrypt o P tc1 (ivOfSeq (seq + L1)) (d1.drop L1) L2 with
    | .error _ => none
    | .ok (_, d2) => some (d1.take L1 ++ d2)

/-- Ones'-complement fold of a sum to 16 bits, the end-around carry of the
Internet checksum: zero stays zero, any other sum goes to its residue modulo
`0xffff` taken in `1..0xffff`. -/
def onesFold (x : Nat) : Nat := if x = 0 then 0 else (x - 1) % 65535 + 1

/-- Sum of the host-order 16-bit words of the first `len` bytes of `bytes`, a
trailing odd byte padded with a zero byte to a word. -/
def paddedWordSum (o : ByteOrder) (bytes : List Nat) (len : Nat) : Nat :=
  wordsFrom o bytes (len / 2) 0 +
    (if len % 2 = 1 then load o [bytes.getD (len - 1) 0, 0] else 0)

/-- The nested HMAC suite behind `ap_hmac`, reached through the wrappers
`crypto_init`, `crypto_set_key` and `crypto_mac` declared outside this file.
`S` is the state of that suite. -/
structure SubAuth (S : Type) where
  /-- State after `crypto_init(ap->ap_hmac)`. -/
  init : S
  /-- The call `crypto_set_key(ap->ap_hmac, key, len)`: the new state, or the
  fault it ends with. -/
  set_key : S → List Nat → Int → Except Fault S
  /-- The call `crypto_mac(ap->ap_hmac, iov, num, iv, out, &l)` with `l` the
  capacity on entry: the tag bytes it writes at `out`. -/
  mac : S → List (List Nat) → List Nat → Int → List Nat

/-- Modelled from the spec: the enumerator `IVMODE_SEQ` is declared outside
`crypto_aes.c`. The spec has the probe signal the sequential mode "via a
negative sentinel in the length output", and that output is `-IVMODE_SEQ`: the
enumerator is some positive number. -/
def positiveMode (IVMODE_SEQ : Int) : Prop := 0 < IVMODE_SEQ

/-- The function `aes_next_iv(tc, out, outlen)`: the contents of `out` and of
`*outlen` on return. The enumerator `IVMODE_SEQ` is a parameter. -/
def aes_next_iv (IVMODE_SEQ : Int) (out : List Nat) (outlen : Int) : Except Fault (List Nat × Int) :=
  -- assert(*outlen == 0)
  if outlen ≠ 0 then .error .assertion else .ok (out, -IVMODE_SEQ)

/-- What a call of `hmac_mac` leaves behind. -/
structure MacResult where
  /-- Contents of the buffer `out`. -/
  out : List Nat
  /-- Contents of `*outlen`. -/
  outlen : Int
  /-- The calls of `crypto_mac` on the nested suite made on the way, each
  with its segments and IV. -/
  subCalls : List (List (List Nat) × List Nat)

/-- The function `hmac_mac(tc, iov, num, iv, out, outlen)`. `lame` is what the
64-byte stack array of that name holds on entry. -/
def hmac_mac {K S : Type} (A : SubAuth S) (tc : Tc K S) (lame : List Nat) (iov : List (List Nat))
    (iv out : List Nat) (outlen : Int) : Except Fault MacResult :=
  if outlen < MAC_LEN then .ok { out := out, outlen := MAC_LEN, subCalls := [] } else
  match tc.priv.bind (fun ap => ap.ap_hmac) with
  | none => .error .undefined
  | some s =>
    let tag := A.mac s iov iv 64
    -- the tag is written into lame[64]
    if 64 < tag.length then .error .undefined else
    let lame := tag ++ lame.drop tag.length
    -- memcpy(out, lame, MAC_LEN) writes out[0 .. MAC_LEN)
    if out.length < MAC_LEN then .error .undefined else
    .ok { out := lame.take MAC_LEN ++ out.drop MAC_LEN, outlen := MAC_LEN,
          subCalls := [(iov, iv)] }

/-- The descriptor `_aes_spec` together with the flag `static int init` of `aes_spec`. -/
structure SpecState where
  /-- The field `_aes_spec.sc_algo`. -/
  sc_algo : Nat
  /-- The flag `init`. -/
  init : Nat
  deriving DecidableEq, Repr

/-- The state at process start: `_aes_spec = { TC_AES128_HMAC_SHA2 }`, `init = 0`.
The identifier `TC_AES128_HMAC_SHA2` is declared outside this file and is the
parameter `algo`. -/
def specStart (algo : Nat) : SpecState := { sc_algo := algo, init := 0 }

/-- The effect of one call of `aes_spec()` on the descriptor and the flag; the
call returns the address of the descriptor. -/
def aes_spec (o : ByteOrder) (s : SpecState) : SpecState :=
  if s.init = 0 then { sc_algo := htonl o s.sc_algo, init := 1 } else s

/-- The resources a context owns. -/
inductive Resource where
  /-- Keyed state `ap_ctx`, released by `EVP_CIPHER_CTX_cleanup`. -/
  | bulkCtx
  /-- Keyed state `ap_mac`, released by `EVP_CIPHER_CTX_cleanup`. -/
  | ackCtx
  /-- The nested suite, released by `crypto_finish(ap->ap_hmac)`. -/
  | subAuth
  /-- The block `ap->ap_hmac`, released by `free`. -/
  | subBlock
  /-- The private block `ap`, released by `free`. -/
  | privBlock
  deriving DecidableEq, Repr

/-- A context together with the allocator's view of it. -/
structure Proc (K S : Type) where
  /-- The context. -/
  tc : Tc K S
  /-- Whether the block `crypto_priv(tc)` points to has been given to `free`. -/
  privFreed : Bool
  /-- Release operations performed so far, oldest first. -/
  released : List Resource

/-- The function `aes_init(tc)`: a fresh private block with two unkeyed cipher
contexts and a freshly allocated, initialised nested suite. -/
def aes_init {K S : Type} (A : SubAuth S) (p : Proc K S) : Proc K S :=
  { p with tc := { p.tc with priv := some { ap_ctx := none, ap_mac := none,
                                            ap_hmac := some A.init } },
           privFreed := false }

/-- The function `aes_finish(tc)`. It never writes to `tc`, so the pointer
`crypto_priv(tc)` returns is the same after the call as before. -/
def aes_finish {K S : Type} (p : Proc K S) : Except Fault (Proc K S) :=
  match p.tc.priv with
  | none => .ok p
  | some ap =>
    -- the block is read and released through `ap`
    if p.privFreed then .error .undefined else
    .ok { p with privFreed := true,
                 released := p.released ++ [Resource.bulkCtx, Resource.ackCtx]
                   ++ (match ap.ap_hmac with
                       | some _ => [Resource.subAuth, Resource.subBlock]
                       | none => [])
                   ++ [Resource.privBlock] }

/-- A nested suite for evaluating the model: it accepts every key and its tag
is 32 bytes of `0x11`. -/
def toySubAuth : SubAuth Unit where
  init := ()
  set_key := fun s _ _ => .ok s
  mac := fun _ _ _ _ => List.replicate 32 0x11

/-- A process with no context yet: null private pointer, nothing released. -/
def noContext : Proc (List Nat) Unit :=
  { tc := { tc_csum := 0, priv := none }, privFreed := false, released := [] }

/-- The context `aes_init` creates over the stand-in nested suite. -/
def freshTc : Tc (List Nat) Unit := (aes_init toySubAuth noContext).tc

/-- The scratch buffer `blocks` as `do_aes` hands it to the block cipher: the
counter blocks, before `EVP_EncryptUpdate` overwrites them. -/
def scratch (o : ByteOrder) (iv : List Nat) (len : Nat) : List Nat :=
  fillBlocks o (xhtobe64 o 1) (scratchLen (seqRem o iv) len >>> 4) (seqCtr o iv)

/-- The `i`-th 16-byte block of the scratch buffer, the `i`-th input of the block cipher. -/
def counterBlock (o : ByteOrder) (iv : List Nat) (len i : Nat) : List Nat :=
  ((scratch o iv len).drop (16 * i)).take 16

/-- How a call ends and the memory it leaves: `fault` is `none` when the call
returns, and `tc`, `data` are the context and the span as they stand when the
call returns or stops. -/
structure Outcome (K S : Type) where
  /-- The fault the call stops with, `none` when it returns. -/
  fault : Option Fault
  /-- The context at that point. -/
  tc : Tc K S
  /-- The span at that point. -/
  data : List Nat

/-- The function `do_aes(tc, iv, data, len, enc)` once more, now with the memory
a call that stops early leaves behind. Nothing is written to `tc` or `data`
before the XOR loops, so every exit before them has both as on entry; the two
assertions after the loops stop with what the loops wrote. -/
def do_aes_mem {K S : Type} (o : ByteOrder) (P : Primitive K) (tc : Tc K S) (iv data : List Nat)
    (len : Nat) (_enc : Nat) : Outcome K S :=
  let inc := xhtobe64 o 1
  -- assert(len)
  if len = 0 then { fault := some .assertion, tc := tc, data := data } else
  -- figure out counter value and remainder
  let ctr := xbe64toh o (load o (iv.take 8))
  let rem := ctr &&& 0xf
  let ctr := clearLow4 ctr
  let blen := scratchLen rem len
  let blocks := fillBlocks o inc (blen >>> 4) ctr
  -- do AES
  match tc.priv.bind (fun ap => ap.ap_ctx) with
  | none => { fault := some .undefined, tc := tc, data := data }
  | some k =>
    match EVP_EncryptUpdate P k blocks blen with
    | none => { fault := some .fatal, tc := tc, data := data }
    | some blocks =>
      -- assert(i == blen)
      if blocks.length ≠ blen then { fault := some .assertion, tc := tc, data := data } else
      if data.length < len then { fault := some .undefined, tc := tc, data := data } else
      -- XOR data (and checksum)
      let s := wordLoop o blocks len
        { data := data, tc_csum := tc.tc_csum, len := len, pd := 0, pb := rem, csum := 0, i := 0 }
      -- XOR any remainder
      let s := byteLoop o blocks s.len { s with i := 0 }
      -- assert(pb2 - blocks <= blen); assert(blen - (pb2 - blocks) < 16)
      if ¬ s.pb ≤ blen then
        { fault := some .assertion, tc := { tc with tc_csum := s.tc_csum }, data := s.data } else
      if ¬ blen - s.pb < 16 then
        { fault := some .assertion, tc := { tc with tc_csum := s.tc_csum }, data := s.data } else
      -- sum odd byte
      let s := oddStep o s
      { fault := none, tc := { tc with tc_csum := s.tc_csum }, data := s.data }

/-- The function `aes_encrypt(tc, iv, data, len)` with the memory it leaves. -/
def aes_encrypt_mem {K S : Type} (o : ByteOrder) (P : Primitive K) (tc : Tc K S)
    (iv data : List Nat) (len : Nat) : Outcome K S :=
  do_aes_mem o P tc iv data len 1

/-- The function `aes_decrypt(tc, iv, data, len)` with the memory it leaves;
the returned `int` is `len` when the call returns. -/
def aes_decrypt_mem {K S : Type} (o : ByteOrder) (P : Primitive K) (tc : Tc K S)
    (iv data : List Nat) (len : Nat) : Outcome K S :=
  do_aes_mem o P tc iv data len 0

/-- An outcome as a result: the memory when the call returned, the fault otherwise. -/
def Outcome.result {K S : Type} (r : Outcome K S) : Except Fault (Tc K S × List Nat) :=
  match r.fault with
  | none => .ok (r.tc, r.data)
  | some e => .error e

/-- Growth of the 32-bit accumulator from `before` to `after`, modulo `2^32`:
the amount a call has added to `tc_csum`. -/
def csumGrowth (before after : Nat) : Nat := (after + (2 ^ 32 - before % 2 ^ 32)) % 2 ^ 32

/-- Sum of the host-order 16-bit words of a byte list taken two bytes at a
time, a last odd byte entering as `pad` makes a word of it. -/
def wordSumList (o : ByteOrder) (pad : Nat → Nat) : List Nat → Nat
  | [] => 0
  | [b] => pad b
  | a :: b :: rest => load o [a, b] + wordSumList o pad rest

/-! ## Theorems -/

/-! ### Arithmetic of the masks -/

theorem and_0xf (x : Nat) : x &&& 0xf = x % 16 :=
  Nat.and_pow_two_sub_one_eq_mod x 4

theorem clearLow4_eq (x : Nat) : clearLow4 x = x - x % 16 := by
  simp [clearLow4, and_0xf]

theorem shr4_eq (x : Nat) : x >>> 4 = x / 16 := by
  simp [Nat.shiftRight_eq_div_pow]

theorem scratchLen_eq (rem len : Nat) :
    scratchLen rem len =
      (if len % 16 ≠ 0 ∧ (len % 16 > 16 - rem ∨ rem = 0)
        then (if rem ≠ 0 then len - len % 16 + 16 else len - len % 16) + 16
        else (if rem ≠ 0 then len - len % 16 + 16 else len - len % 16)) := by
  simp only [scratchLen, clearLow4_eq, and_0xf, BLEN]

theorem scratchLen_dvd (rem len : Nat) : scratchLen rem len % 16 = 0 := by
  rw [scratchLen_eq]
  split_ifs <;> omega

theorem scratchLen_covers (rem len : Nat) (hrem : rem < 16) :
    rem + len ≤ scratchLen rem len ∧ scratchLen rem len - (rem + len) < 16 := by
  rw [scratchLen_eq]
  split_ifs <;> omega

/-! ### The scratch buffer -/

theorem ecb_length (f : List Nat → List Nat) (hf : ∀ b, (f b).length = 16) (n : Nat)
    (buf : List Nat) : (ecb f n buf).length = 16 * n := by
  induction n generalizing buf with
  | zero => simp [ecb]
  | succ n ih => simp [ecb, hf, ih]; omega

/-! ### The XOR of a byte range -/

theorem getD_ext {l₁ l₂ : List Nat} (hlen : l₁.length = l₂.length)
    (h : ∀ j, j < l₁.length → l₁.getD j 0 = l₂.getD j 0) : l₁ = l₂ := by
  apply List.ext_getElem hlen
  intro n h₁ h₂
  have := h n h₁
  rwa [List.getD_eq_getElem _ _ h₁, List.getD_eq_getElem _ _ h₂] at this

theorem xor1_length (data blocks : List Nat) (p q : Nat) :
    (xor1 data blocks p q).length = data.length := by
  simp [xor1]

theorem xor1_getD (data blocks : List Nat) (p q j : Nat) (hp : p < data.length) :
    (xor1 data blocks p q).getD j 0 =
      if j = p then data.getD p 0 ^^^ blocks.getD q 0 else data.getD j 0 := by
  unfold xor1
  by_cases hj : j < data.length
  · rw [List.getD_eq_getElem _ _ (by rw [List.length_set]; exact hj), List.getElem_set]
    by_cases hjp : j = p
    · rw [if_pos hjp.symm, if_pos hjp]
    · rw [if_neg (fun h => hjp h.symm), if_neg hjp, List.getD_eq_getElem _ _ hj]
  · have hjp : ¬ j = p := by omega
    rw [if_neg hjp, List.getD_eq_default _ _ (by rw [List.length_set]; omega),
      List.getD_eq_default _ _ (by omega)]

theorem xorBytes_length (blocks : List Nat) (n : Nat) (data : List Nat) (p q : Nat) :
    (xorBytes blocks n data p q).length = data.length := by
  induction n generalizing data p q with
  | zero => rfl
  | succ n ih => simp [xorBytes, ih, xor1_length]

theorem xorBytes_getD (blocks : List Nat) (n : Nat) (data : List Nat) (p q j : Nat)
    (hp : p + n ≤ data.length) :
    (xorBytes blocks n data p q).getD j 0 =
      if p ≤ j ∧ j < p + n then data.getD j 0 ^^^ blocks.getD (q + (j - p)) 0
      else data.getD j 0 := by
  induction n generalizing data p q with
  | zero =>
    have h : ¬ (p ≤ j ∧ j < p + 0) := by omega
    rw [xorBytes, if_neg h]
  | succ n ih =>
    rw [xorBytes, ih _ _ _ (by rw [xor1_length]; omega), xor1_getD _ _ _ _ _ (by omega)]
    by_cases h1 : j = p
    · subst h1
      have h2 : ¬ (j + 1 ≤ j ∧ j < j + 1 + n) := by omega
      have h3 : j ≤ j ∧ j < j + (n + 1) := by omega
      rw [if_neg h2, if_pos rfl, if_pos h3, Nat.sub_self, Nat.add_zero]
    · by_cases h2 : p + 1 ≤ j ∧ j < p + 1 + n
      · have h3 : p ≤ j ∧ j < p + (n + 1) := by omega
        have h4 : q + 1 + (j - (p + 1)) = q + (j - p) := by omega
        rw [if_pos h2, if_neg h1, if_pos h3, h4]
      · have h3 : ¬ (p ≤ j ∧ j < p + (n + 1)) := by omega
        rw [if_neg h2, if_neg h1, if_neg h3]

theorem xorBytes_add (blocks : List Nat) (m n : Nat) (data : List Nat) (p q : Nat) :
    xorBytes blocks n (xorBytes blocks m data p q) (p + m) (q + m) =
      xorBytes blocks (m + n) data p q := by
  induction m generalizing data p q with
  | zero => simp [xorBytes]
  | succ m ih =>
    have h := ih (xor1 data blocks p q) (p + 1) (q + 1)
    have e1 : p + 1 + m = p + (m + 1) := by omega
    have e2 : q + 1 + m = q + (m + 1) := by omega
    have e3 : m + 1 + n = (m + n) + 1 := by omega
    rw [e1, e2] at h
    rw [xorBytes, h, e3, xorBytes]

/-- XOR-ing the same bytes into a span twice restores the span. -/
theorem xorBytes_twice (blocks : List Nat) (n : Nat) (data : List Nat) (q : Nat)
    (hn : n ≤ data.length) :
    xorBytes blocks n (xorBytes blocks n data 0 q) 0 q = data := by
  apply getD_ext (by simp [xorBytes_length])
  intro j _
  rw [xorBytes_getD _ _ _ _ _ _ (by rw [xorBytes_length]; omega),
    xorBytes_getD _ _ _ _ _ _ (by omega)]
  by_cases h : 0 ≤ j ∧ j < 0 + n
  · rw [if_pos h, if_pos h]
    exact Nat.xor_cancel_right _ _
  · rw [if_neg h, if_neg h]

/-! ### The checksum words -/

theorem load16_congr (o : ByteOrder) (d d' : List Nat) (c : Nat)
    (h0 : d.getD c 0 = d'.getD c 0) (h1 : d.getD (c + 1) 0 = d'.getD (c + 1) 0) :
    load16 o d c = load16 o d' c := by
  simp only [load16, h0, h1]

theorem wordsFrom_congr (o : ByteOrder) (d d' : List Nat) (m p : Nat)
    (h : ∀ j, p ≤ j → j < p + 2 * m → d.getD j 0 = d'.getD j 0) :
    wordsFrom o d m p = wordsFrom o d' m p := by
  induction m generalizing p with
  | zero => rfl
  | succ m ih =>
    rw [wordsFrom, wordsFrom, ih (p + 2) (fun j h1 h2 => h j (by omega) (by omega)),
      load16_congr o d d' p (h p (by omega) (by omega)) (h (p + 1) (by omega) (by omega))]

theorem wordsFrom_add (o : ByteOrder) (d : List Nat) (a b p : Nat) :
    wordsFrom o d (a + b) p = wordsFrom o d a p + wordsFrom o d b (p + 2 * a) := by
  induction a generalizing p with
  | zero => simp [wordsFrom]
  | succ a ih =>
    have e : a + 1 + b = (a + b) + 1 := by omega
    have e2 : p + 2 + 2 * a = p + 2 * (a + 1) := by omega
    rw [e, wordsFrom, wordsFrom, ih, e2]
    omega

/-! ### The two XOR loops -/

theorem wordLoop_spec (o : ByteOrder) (ks : List Nat) (fuel : Nat) (s : Cursor)
    (hfuel : s.len / 4 ≤ fuel) (hc : s.csum = s.pd) (hlen : s.pd + s.len ≤ s.data.length) :
    (wordLoop o ks fuel s).data = xorBytes ks (4 * (s.len / 4)) s.data s.pd s.pb ∧
    (wordLoop o ks fuel s).len = s.len % 4 ∧
    (wordLoop o ks fuel s).pd = s.pd + 4 * (s.len / 4) ∧
    (wordLoop o ks fuel s).pb = s.pb + 4 * (s.len / 4) ∧
    (wordLoop o ks fuel s).csum = s.pd + 4 * (s.len / 4) ∧
    (wordLoop o ks fuel s).i = s.i ∧
    (wordLoop o ks fuel s).tc_csum % 2 ^ 32 =
      (s.tc_csum + wordsFrom o (xorBytes ks (4 * (s.len / 4)) s.data s.pd s.pb)
        (2 * (s.len / 4)) s.pd) % 2 ^ 32 ∧
    (4 ≤ s.len → (wordLoop o ks fuel s).tc_csum < 2 ^ 32) := by
  induction fuel generalizing s with
  | zero =>
    have h0 : s.len / 4 = 0 := by omega
    have h1 : s.len % 4 = s.len := by omega
    have h2 : ¬ 4 ≤ s.len := by omega
    simp [wordLoop, h0, h1, h2, xorBytes, wordsFrom, hc]
  | succ fuel ih =>
    by_cases h4 : 4 ≤ s.len
    · rw [wordLoop, if_pos h4]
      have hs1 := ih (wordStep o ks s) (by simp only [wordStep]; omega)
        (by simp only [wordStep]; omega)
        (by simp only [wordStep, xorBytes_length]; omega)
      obtain ⟨hd, hl, hpd, hpb, hcs, hi, hsum, _⟩ := hs1
      have ediv : s.len / 4 = (s.len - 4) / 4 + 1 := by omega
      have e4 : 4 * ((s.len - 4) / 4 + 1) = 4 + 4 * ((s.len - 4) / 4) := by omega
      have e2 : 2 * ((s.len - 4) / 4 + 1) = 2 * ((s.len - 4) / 4) + 1 + 1 := by omega
      have hdata : (wordLoop o ks fuel (wordStep o ks s)).data =
          xorBytes ks (4 * (s.len / 4)) s.data s.pd s.pb := by
        rw [hd, ediv, e4, ← xorBytes_add]
        rfl
      refine ⟨hdata, ?_, ?_, ?_, ?_, ?_, ?_, ?_⟩
      · rw [hl]; simp only [wordStep]; omega
      · rw [hpd]; simp only [wordStep]; omega
      · rw [hpb]; simp only [wordStep]; omega
      · rw [hcs]; simp only [wordStep]; omega
      · rw [hi]; rfl
      · rw [hsum, ← hdata, hd]
        simp only [wordStep, add32, hc]
        set d1 := xorBytes ks 4 s.data s.pd s.pb with hd1
        set t := (s.len - 4) / 4 with ht
        set d2 := xorBytes ks (4 * t) d1 (s.pd + 4) (s.pb + 4) with hd2
        have hlen1 : s.pd + 4 + 4 * t ≤ d1.length := by
          rw [hd1, xorBytes_length]; omega
        have hkeep : ∀ j, j < s.pd + 4 → d2.getD j 0 = d1.getD j 0 := by
          intro j hj
          rw [hd2, xorBytes_getD _ _ _ _ _ _ hlen1, if_neg (by omega)]
        have hw0 : load16 o d1 s.pd = load16 o d2 s.pd :=
          (load16_congr o d2 d1 s.pd (hkeep _ (by omega)) (hkeep _ (by omega))).symm
        have hw1 : load16 o d1 (s.pd + 2) = load16 o d2 (s.pd + 2) :=
          (load16_congr o d2 d1 (s.pd + 2) (hkeep _ (by omega)) (hkeep _ (by omega))).symm
        have ediv2 : 2 * (s.len / 4) = 2 * t + 1 + 1 := by omega
        rw [ediv2, wordsFrom, wordsFrom, hw0, hw1]
        have e5 : s.pd + 2 + 2 = s.pd + 4 := by omega
        rw [e5]
        omega
      · intro _
        by_cases h8 : 4 ≤ (wordStep o ks s).len
        · exact (ih (wordStep o ks s) (by simp only [wordStep]; omega)
            (by simp only [wordStep]; omega)
            (by simp only [wordStep, xorBytes_length]; omega)).2.2.2.2.2.2.2 h8
        · have hstop : wordLoop o ks fuel (wordStep o ks s) = wordStep o ks s := by
            cases fuel with
            | zero => rfl
            | succ f => rw [wordLoop, if_neg h8]
          rw [hstop]
          simp only [wordStep, add32]
          exact Nat.mod_lt _ (by norm_num)
    · have h0 : s.len / 4 = 0 := by omega
      have h1 : s.len % 4 = s.len := by omega
      simp [wordLoop, h0, h1, h4, xorBytes, wordsFrom, hc]

theorem byteLoop_spec (o : ByteOrder) (ks : List Nat) (s : Cursor)
    (h4 : s.len < 4) (hi : s.i = 0) (hc : s.csum = s.pd) :
    (byteLoop o ks s.len s).data = xorBytes ks s.len s.data s.pd s.pb ∧
    (byteLoop o ks s.len s).pb = s.pb + s.len ∧
    (byteLoop o ks s.len s).i = s.len % 2 ∧
    (byteLoop o ks s.len s).csum = s.pd + 2 * (s.len / 2) ∧
    (byteLoop o ks s.len s).tc_csum =
      (if 2 ≤ s.len then add32 s.tc_csum (load16 o (xorBytes ks 2 s.data s.pd s.pb) s.pd)
       else s.tc_csum) := by
  obtain ⟨data, c, len, pd, pb, csum, i⟩ := s
  simp only at h4 hi hc
  subst hi hc
  interval_cases len <;> simp [byteLoop, byteStep, xorBytes]

theorem loops_spec (o : ByteOrder) (ks data : List Nat) (c len rem : Nat)
    (h1 : 1 ≤ len) (hdata : len ≤ data.length) :
    let s1 := wordLoop o ks len
      { data := data, tc_csum := c, len := len, pd := 0, pb := rem, csum := 0, i := 0 }
    let s2 := byteLoop o ks s1.len { s1 with i := 0 }
    s2.pb = rem + len ∧
    (oddStep o s2).data = xorBytes ks len data 0 rem ∧
    (oddStep o s2).tc_csum = (c + csumAdded o (xorBytes ks len data 0 rem) len) % 2 ^ 32 := by
  intro s1 s2
  obtain ⟨wd, wl, wpd, wpb, wcs, _, wsum, wlt⟩ := wordLoop_spec o ks len
    { data := data, tc_csum := c, len := len, pd := 0, pb := rem, csum := 0, i := 0 }
    (by simp only; omega) rfl (by simp only; omega)
  simp only [Nat.zero_add] at wd wl wpd wpb wcs wsum wlt
  obtain ⟨bd, bpb, bi, bcs, bsum⟩ := byteLoop_spec o ks { s1 with i := 0 }
    (by show s1.len < 4; rw [wl]; omega) rfl (by show s1.csum = s1.pd; rw [wcs, wpd])
  simp only at bd bpb bi bcs bsum
  change s2.data = _ at bd
  change s2.pb = _ at bpb
  change s2.i = _ at bi
  change s2.csum = _ at bcs
  change s2.tc_csum = _ at bsum
  change s1.data = _ at wd
  change s1.len = _ at wl
  change s1.pd = _ at wpd
  change s1.pb = _ at wpb
  change s1.tc_csum % _ = _ at wsum
  change _ → s1.tc_csum < _ at wlt
  set t := len / 4 with ht
  set d1 := xorBytes ks (4 * t) data 0 rem with hd1
  set out := xorBytes ks len data 0 rem with hout
  have hsplit : len = 4 * t + len % 4 := by omega
  have hout2 : out = xorBytes ks (len % 4) d1 (4 * t) (rem + 4 * t) := by
    have := xorBytes_add ks (4 * t) (len % 4) data 0 rem
    rw [Nat.zero_add, ← hsplit] at this
    exact this.symm
  have hd1len : d1.length = data.length := xorBytes_length _ _ _ _ _
  have hkeep : ∀ j, j < 4 * t → out.getD j 0 = d1.getD j 0 := by
    intro j hj
    rw [hout2, xorBytes_getD _ _ _ _ _ _ (by rw [hd1len]; omega), if_neg (by omega)]
  have hW : wordsFrom o d1 (2 * t) 0 = wordsFrom o out (2 * t) 0 :=
    wordsFrom_congr o d1 out (2 * t) 0 (fun j _ hj => (hkeep j (by omega)).symm)
  have hs2data : s2.data = out := by
    rw [bd, wl, wd, wpd, wpb, hout2]
  refine ⟨by rw [bpb, wpb, wl]; omega, ?_, ?_⟩
  · unfold oddStep
    split_ifs <;> simp only [hs2data]
  · rw [wl, wd, wpd, wpb] at bsum
    rw [wl] at bi
    rw [wl, wpd] at bcs
    have hr : len % 4 = 0 ∨ len % 4 = 1 ∨ len % 4 = 2 ∨ len % 4 = 3 := by omega
    unfold oddStep csumAdded
    rw [hs2data, bi, bcs]
    rcases hr with hr | hr | hr | hr
    · have e1 : len % 4 % 2 = 0 := by omega
      have e2 : len % 2 = 0 := by omega
      have e3 : len / 2 = 2 * t := by omega
      have e4 : ¬ 2 ≤ len % 4 := by omega
      rw [if_neg e4] at bsum
      have hlt := wlt (by omega)
      simp only [e1, e2, e3, ne_eq, not_true_eq_false, if_false, Nat.add_zero,
        Nat.zero_ne_one]
      rw [bsum, ← hW, ← wsum, Nat.mod_eq_of_lt hlt]
    · have e1 : len % 4 % 2 = 1 := by omega
      have e2 : len % 2 = 1 := by omega
      have e3 : len / 2 = 2 * t := by omega
      have e4 : ¬ 2 ≤ len % 4 := by omega
      have e5 : 4 * t + 2 * (len % 4 / 2) = len - 1 := by omega
      rw [if_neg e4] at bsum
      simp only [e1, e2, e3, e5, ne_eq, one_ne_zero, not_false_eq_true, if_true, add32]
      rw [bsum, ← hW]
      omega
    · have e1 : len % 4 % 2 = 0 := by omega
      have e2 : len % 2 = 0 := by omega
      have e3 : len / 2 = 2 * t + 1 := by omega
      have e4 : 2 ≤ len % 4 := by omega
      rw [if_pos e4] at bsum
      have hw : load16 o (xorBytes ks 2 d1 (4 * t) (rem + 4 * t)) (4 * t) =
          load16 o out (4 * t) := by rw [hout2, hr]
      have e6 : 0 + 2 * (2 * t) = 4 * t := by omega
      simp only [e1, e2, e3, ne_eq, not_true_eq_false, if_false, Nat.add_zero,
        Nat.zero_ne_one]
      rw [bsum, hw, wordsFrom_add, ← hW, e6]
      simp only [wordsFrom, add32, Nat.add_zero]
      omega
    · have e1 : len % 4 % 2 = 1 := by omega
      have e2 : len % 2 = 1 := by omega
      have e3 : len / 2 = 2 * t + 1 := by omega
      have e4 : 2 ≤ len % 4 := by omega
      have e5 : 4 * t + 2 * (len % 4 / 2) = len - 1 := by omega
      rw [if_pos e4] at bsum
      have hout3 : out = xorBytes ks 1 (xorBytes ks 2 d1 (4 * t) (rem + 4 * t))
          (4 * t + 2) (rem + 4 * t + 2) := by
        rw [hout2, hr, xorBytes_add]
      have hl2 : (xorBytes ks 2 d1 (4 * t) (rem + 4 * t)).length = data.length := by
        rw [xorBytes_length, hd1len]
      have hkeep2 : ∀ j, j < 4 * t + 2 →
          out.getD j 0 = (xorBytes ks 2 d1 (4 * t) (rem + 4 * t)).getD j 0 := by
        intro j hj
        rw [hout3, xorBytes_getD ks 1 (xorBytes ks 2 d1 (4 * t) (rem + 4 * t)) (4 * t + 2)
          (rem + 4 * t + 2) j (by rw [hl2]; omega), if_neg (by omega)]
      have hw : load16 o (xorBytes ks 2 d1 (4 * t) (rem + 4 * t)) (4 * t) =
          load16 o out (4 * t) :=
        (load16_congr o out _ (4 * t) (hkeep2 _ (by omega)) (hkeep2 _ (by omega))).symm
      have e6 : 0 + 2 * (2 * t) = 4 * t := by omega
      simp only [e1, e2, e3, e5, ne_eq, one_ne_zero, not_false_eq_true, if_true, add32]
      rw [bsum, hw, wordsFrom_add, ← hW, e6]
      simp only [wordsFrom, add32, Nat.add_zero]
      omega

/-! ### Byte strings and the sequence value -/

theorem leBytes_length (n x : Nat) : (leBytes n x).length = n := by
  induction n generalizing x with
  | zero => rfl
  | succ n ih => simp [leBytes, ih]

theorem store_length (o : ByteOrder) (n x : Nat) : (store o n x).length = n := by
  cases o <;> simp [store, leBytes_length]

theorem leVal_leBytes (n x : Nat) : leVal (leBytes n x) = x % 256 ^ n := by
  induction n generalizing x with
  | zero => simp [leBytes, leVal, Nat.mod_one]
  | succ n ih =>
    rw [leBytes, leVal, ih, pow_succ, Nat.mul_comm (256 ^ n) 256, Nat.mod_mul]

theorem leBytes_lt (n x b : Nat) (hb : b ∈ leBytes n x) : b < 256 := by
  induction n generalizing x with
  | zero => simp [leBytes] at hb
  | succ n ih =>
    rw [leBytes, List.mem_cons] at hb
    rcases hb with hb | hb
    · omega
    · exact ih _ hb

theorem leBytes_leVal (bs : List Nat) (h : ∀ b ∈ bs, b < 256) :
    leBytes bs.length (leVal bs) = bs := by
  induction bs with
  | nil => rfl
  | cons b bs ih =>
    have hb : b < 256 := h b (List.mem_cons_self _ _)
    have e1 : (b + 256 * leVal bs) % 256 = b := by omega
    have e2 : (b + 256 * leVal bs) / 256 = leVal bs := by omega
    rw [List.length_cons, leVal, leBytes, e1, e2, ih (fun x hx => h x (List.mem_cons_of_mem _ hx))]

/-- The sequence value `do_aes` reads from the big-endian bytes of `seq` is
`seq` (modulo `2^64`) on either host. -/
theorem seq_decode (o : ByteOrder) (seq : Nat) :
    xbe64toh o (load o ((ivOfSeq seq).take 8)) = seq % 2 ^ 64 := by
  have hlen : (ivOfSeq seq).length = 8 := by simp [ivOfSeq, leBytes_length]
  rw [List.take_of_length_le (by omega)]
  have hpow : (256 : Nat) ^ 8 = 2 ^ 64 := by norm_num
  cases o
  · have hlt : ∀ b ∈ (leBytes 8 seq).reverse, b < 256 :=
      fun b hb => leBytes_lt 8 seq b (List.mem_reverse.mp hb)
    have h8 : (leBytes 8 seq).reverse.length = 8 := by simp [leBytes_length]
    have := leBytes_leVal _ hlt
    rw [h8] at this
    simp only [xbe64toh, load, bswap64, ivOfSeq]
    rw [this, List.reverse_reverse, leVal_leBytes, hpow]
  · simp only [xbe64toh, load, ivOfSeq, List.reverse_reverse, leVal_leBytes, hpow,
      Nat.mod_mod]

theorem seqRem_ivOfSeq (o : ByteOrder) (seq : Nat) : seqRem o (ivOfSeq seq) = seq % 16 := by
  rw [seqRem, seq_decode, and_0xf]
  omega

theorem seqCtr_ivOfSeq (o : ByteOrder) (seq : Nat) :
    seqCtr o (ivOfSeq seq) = seq % 2 ^ 64 - seq % 16 := by
  rw [seqCtr, seq_decode, clearLow4_eq]
  omega

/-! ### The keystream, block by block -/

theorem ecb_fill_succ (f : List Nat → List Nat) (o : ByteOrder) (inc n ctr : Nat) :
    ecb f (n + 1) (fillBlocks o inc (n + 1) ctr) =
      f (store o 8 0 ++ store o 8 ctr) ++
        ecb f n (fillBlocks o inc n ((ctr + inc) % 2 ^ 64)) := by
  have h16 : (store o 8 0 ++ store o 8 ctr).length = 16 := by
    simp [store_length]
  rw [ecb, fillBlocks, List.take_left' h16, List.drop_left' h16]

/-- A keystream byte does not depend on how many blocks the call asked for. -/
theorem ecb_fill_getD (f : List Nat → List Nat) (hf : ∀ b, (f b).length = 16) (o : ByteOrder)
    (inc n m ctr j : Nat) (hn : j < 16 * n) (hm : j < 16 * m) :
    (ecb f n (fillBlocks o inc n ctr)).getD j 0 =
      (ecb f m (fillBlocks o inc m ctr)).getD j 0 := by
  induction n generalizing m ctr j with
  | zero => omega
  | succ n ih =>
    cases m with
    | zero => omega
    | succ m =>
      rw [ecb_fill_succ, ecb_fill_succ]
      by_cases hj : j < 16
      · rw [List.getD_append _ _ _ _ (by rw [hf]; exact hj),
          List.getD_append _ _ _ _ (by rw [hf]; exact hj)]
      · rw [List.getD_append_right _ _ _ _ (by rw [hf]; omega),
          List.getD_append_right _ _ _ _ (by rw [hf]; omega), hf]
        exact ih m _ (j - 16) (by omega) (by omega)

theorem keystream_eq {K : Type} (o : ByteOrder) (P : Primitive K) (k : K) (iv : List Nat)
    (len : Nat) :
    keystream o P k iv len =
      ecb (P.encryptBlock k) (scratchLen (seqRem o iv) len / 16)
        (fillBlocks o (xhtobe64 o 1) (scratchLen (seqRem o iv) len / 16) (seqCtr o iv)) := by
  simp only [keystream, seqRem, seqCtr, shr4_eq]

/-- Two calls that start from the same counter read the same keystream byte at
every offset both scratch buffers cover. -/
theorem keystream_getD_agree {K : Type} (o : ByteOrder) (P : Primitive K) (k : K)
    (iv iv2 : List Nat) (len len2 j : Nat) (hctr : seqCtr o iv = seqCtr o iv2)
    (hj : j < scratchLen (seqRem o iv) len) (hj2 : j < scratchLen (seqRem o iv2) len2) :
    (keystream o P k iv len).getD j 0 = (keystream o P k iv2 len2).getD j 0 := by
  rw [keystream_eq, keystream_eq, hctr]
  have d1 := scratchLen_dvd (seqRem o iv) len
  have d2 := scratchLen_dvd (seqRem o iv2) len2
  exact ecb_fill_getD _ (P.encryptBlock_length k) o _ _ _ _ j (by omega) (by omega)

theorem getD_take_lt (l : List Nat) (n j : Nat) (h : j < n) :
    (l.take n).getD j 0 = l.getD j 0 := by
  simp [List.getD_eq_getElem?_getD, List.getElem?_take, h]

theorem getD_drop_add (l : List Nat) (n j : Nat) : (l.drop n).getD j 0 = l.getD (n + j) 0 := by
  simp [List.getD_eq_getElem?_getD, List.getElem?_drop]

/-! ### Closed form of `do_aes` -/

theorem seqRem_lt (o : ByteOrder) (iv : List Nat) : seqRem o iv < 16 := by
  unfold seqRem
  rw [and_0xf]
  omega

theorem keystream_length {K : Type} (o : ByteOrder) (P : Primitive K) (k : K) (iv : List Nat)
    (len : Nat) : (keystream o P k iv len).length = scratchLen (seqRem o iv) len := by
  simp only [keystream, seqRem]
  rw [ecb_length _ (P.encryptBlock_length k)]
  have := scratchLen_dvd (xbe64toh o (load o (iv.take 8)) &&& 0xf) len
  omega

/-- On a keyed context, with a primitive that does not fail and a span of at
least `len >= 1` bytes, `do_aes` returns: the span is XORed with the keystream
from offset `rem` on, and the accumulator grows by the checksum of the result. -/
theorem do_aes_ok {K S : Type} (o : ByteOrder) (P : Primitive K) (tc : Tc K S)
    (iv data : List Nat) (len enc : Nat) (k : K)
    (hk : tc.priv.bind (fun ap => ap.ap_ctx) = some k)
    (hP : ∀ buf, P.updateOk k buf = true)
    (h1 : 1 ≤ len) (hdata : len ≤ data.length) :
    do_aes o P tc iv data len enc =
      .ok ({ tc with tc_csum := (tc.tc_csum + csumAdded o
              (xorBytes (keystream o P k iv len) len data 0 (seqRem o iv)) len) % 2 ^ 32 },
           xorBytes (keystream o P k iv len) len data 0 (seqRem o iv)) := by
  have hne : ¬ len = 0 := by omega
  have hklen := keystream_length o P k iv len
  have hcov := scratchLen_covers (seqRem o iv) len (seqRem_lt o iv)
  obtain ⟨hpb, hd, hc⟩ := loops_spec o (keystream o P k iv len) data tc.tc_csum len
    (seqRem o iv) h1 hdata
  unfold keystream seqRem at hklen hpb hd hc
  unfold seqRem at hcov
  unfold keystream seqRem
  simp only at hklen hpb hd hc hcov
  simp only [do_aes, hne, if_false, hk, EVP_EncryptUpdate, hP, if_true, hklen, ne_eq,
    not_true_eq_false, not_lt.mpr hdata, hpb, hd, hc, not_le, not_lt, hcov.1,
    Nat.not_lt.mpr hcov.1]
  rw [if_neg (by omega)]

theorem fold_odd (o : ByteOrder) (w b : Nat) :
    onesFold (w + oddInt o b) = onesFold (w + load o [b, 0]) := by
  cases o
  · simp [oddInt, load, leVal]
  · simp only [oddInt, load, leVal, onesFold, List.reverse_cons, List.reverse_nil,
      List.nil_append, List.cons_append]
    split_ifs <;> omega

/-! ### The transform: round trip, direction, checksum -/

/-- C1. Round trip: on a keyed context whose primitive does not fail, for every
host byte order, every sequence value `iv` and every span of `len >= 1` bytes,
`aes_encrypt` followed by `aes_decrypt` with the same `iv` both return, and the
second leaves the span as it was before the first. -/
theorem C1_round_trip {K S : Type} (o : ByteOrder) (P : Primitive K) (tc : Tc K S)
    (iv data : List Nat) (len : Nat) (k : K)
    (hk : tc.priv.bind (fun ap => ap.ap_ctx) = some k)
    (hP : ∀ buf, P.updateOk k buf = true)
    (h1 : 1 ≤ len) (hdata : len ≤ data.length) :
    ∃ tc1 d1 tc2,
      aes_encrypt o P tc iv data len = .ok (tc1, d1) ∧
      aes_decrypt o P tc1 iv d1 len = .ok (tc2, data, len) := by
  have he := do_aes_ok o P tc iv data len 1 k hk hP h1 hdata
  have hd := do_aes_ok o P
    { tc with tc_csum := (tc.tc_csum + csumAdded o
        (xorBytes (keystream o P k iv len) len data 0 (seqRem o iv)) len) % 2 ^ 32 }
    iv (xorBytes (keystream o P k iv len) len data 0 (seqRem o iv)) len 0 k hk hP h1
    (by rw [xorBytes_length]; exact hdata)
  rw [xorBytes_twice _ _ _ _ hdata] at hd
  have hd2 := congrArg (fun r => match r with
    | Except.error e => (Except.error e : Except Fault (Tc K S × List Nat × Nat))
    | Except.ok (t, d) => Except.ok (t, d, len)) hd
  exact ⟨_, _, _, he, hd2⟩

/-- C1, at the scenario of the spec: key of 16 zero bytes, sequence 0, 20 bytes `0xAA`. -/
theorem C1_round_trip_witness :
    1 ≤ 20 ∧ 20 ≤ (List.replicate 20 0xAA).length ∧
    ∃ tc1 d1 tc2,
      aes_encrypt .little toyPrimitive (keyedTc (List.replicate 16 0) 0) (ivOfSeq 0)
        (List.replicate 20 0xAA) 20 = .ok (tc1, d1) ∧
      aes_decrypt .little toyPrimitive tc1 (ivOfSeq 0) d1 20 =
        .ok (tc2, List.replicate 20 0xAA, 20) :=
  ⟨by decide, by decide,
    C1_round_trip .little toyPrimitive (keyedTc (List.replicate 16 0) 0) (ivOfSeq 0)
      (List.replicate 20 0xAA) 20 (List.replicate 16 0) rfl (fun _ => rfl) (by decide)
      (by decide)⟩

/-- C10. Direction is immaterial: `do_aes` gives the same result for every two
values of its `enc` flag, so `aes_decrypt` leaves the span and `tc` exactly as
`aes_encrypt` does on the same arguments (and faults exactly when it does); it
only adds the returned `len`. -/
theorem C10_direction_immaterial {K S : Type} (o : ByteOrder) (P : Primitive K) (tc : Tc K S)
    (iv data : List Nat) (len : Nat) :
    (∀ e1 e2 : Nat, do_aes o P tc iv data len e1 = do_aes o P tc iv data len e2) ∧
    aes_decrypt o P tc iv data len =
      (aes_encrypt o P tc iv data len).map (fun r => (r.1, r.2, len)) := by
  refine ⟨fun _ _ => rfl, ?_⟩
  unfold aes_decrypt aes_encrypt
  have h : do_aes o P tc iv data len 0 = do_aes o P tc iv data len 1 := rfl
  rw [h]
  cases do_aes o P tc iv data len 1 with
  | error e => rfl
  | ok r => rfl

theorem csumGrowth_add (b A : Nat) : csumGrowth b ((b + A) % 2 ^ 32) = A % 2 ^ 32 := by
  unfold csumGrowth
  omega

/-! ### The checksum of a whole list, for evaluation -/

theorem wordsFrom_shift (o : ByteOrder) (a b : Nat) (rest : List Nat) (m p : Nat) :
    wordsFrom o (a :: b :: rest) m (p + 2) = wordsFrom o rest m p := by
  induction m generalizing p with
  | zero => rfl
  | succ m ih =>
    rw [wordsFrom, wordsFrom, ih (p + 2)]
    rfl

theorem wordSumList_eq (o : ByteOrder) (pad : Nat → Nat) : ∀ l : List Nat,
    wordsFrom o l (l.length / 2) 0 +
      (if l.length % 2 = 1 then pad (l.getD (l.length - 1) 0) else 0) = wordSumList o pad l
  | [] => rfl
  | [b] => by simp [wordsFrom, wordSumList]
  | a :: b :: rest => by
    have ih := wordSumList_eq o pad rest
    have e1 : (a :: b :: rest).length / 2 = rest.length / 2 + 1 := by
      simp only [List.length_cons]; omega
    have e2 : (a :: b :: rest).length % 2 = rest.length % 2 := by
      simp only [List.length_cons]; omega
    rw [e1, e2, wordsFrom, wordsFrom_shift o a b rest _ 0, wordSumList, ← ih]
    have e0 : load16 o (a :: b :: rest) 0 = load o [a, b] := rfl
    rw [e0]
    by_cases hodd : rest.length % 2 = 1
    · have e3 : (a :: b :: rest).length - 1 = (rest.length - 1) + 1 + 1 := by
        simp only [List.length_cons]; omega
      rw [if_pos hodd, if_pos hodd, e3, List.getD_cons_succ, List.getD_cons_succ]
      omega
    · rw [if_neg hodd, if_neg hodd]
      omega

theorem csumAdded_eq_list (o : ByteOrder) (l : List Nat) (n : Nat) (h : l.length = n) :
    csumAdded o l n = wordSumList o (oddInt o) l := by
  subst h
  exact wordSumList_eq o (oddInt o) l

theorem paddedWordSum_eq_list (o : ByteOrder) (l : List Nat) (n : Nat) (h : l.length = n) :
    paddedWordSum o l n = wordSumList o (fun b => load o [b, 0]) l := by
  subst h
  exact wordSumList_eq o (fun b => load o [b, 0]) l

/-- A span XORed over its whole length is the byte-wise XOR of two lists. -/
theorem xorBytes_eq_zipWith (ks data : List Nat) (q : Nat) (hks : q + data.length ≤ ks.length) :
    xorBytes ks data.length data 0 q = List.zipWith (fun x y => x ^^^ y) data (ks.drop q) := by
  have hlen : (List.zipWith (fun x y => x ^^^ y) data (ks.drop q)).length = data.length := by
    rw [List.length_zipWith, List.length_drop]; omega
  apply getD_ext
  · rw [xorBytes_length, hlen]
  · intro j hj
    rw [xorBytes_length] at hj
    rw [xorBytes_getD _ _ _ _ _ _ (by omega), if_pos (by omega), Nat.sub_zero]
    conv_rhs => rw [List.getD_eq_getElem _ _ (by rw [hlen]; exact hj)]
    rw [List.getElem_zipWith, List.getElem_drop, List.getD_eq_getElem _ _ hj,
      List.getD_eq_getElem _ _ (by omega)]

/-- C3, as stated, fails twice over. First, on a little-endian host with the
stand-in primitive, key of 16 zero bytes, sequence 0 and the plaintext `[0, 0]`,
`aes_encrypt` leaves the ciphertext `[0x5c, 0x5c]` and adds `0x5c5c` to a zero
accumulator, while the words of the plaintext sum to 0; and `aes_decrypt` of
that ciphertext adds 0, not the same value. Second, on a big-endian host with
the key byte `0x5c` (the stand-in keystream is then the counter blocks), sequence
0 and 515 bytes `0xff`, `aes_decrypt` adds 257 words and the odd byte as
`0xff000000`, together `2^32 + 64783`: the 32-bit accumulator, zero before,
holds 64783, while the zero-padded word sum of the output folds to 64784. -/
theorem C3_counterexample :
    (dataOf (aes_encrypt .little toyPrimitive (keyedTc (List.replicate 16 0) 0) (ivOfSeq 0)
      [0, 0] 2) = some [0x5c, 0x5c] ∧
    csumOf (aes_encrypt .little toyPrimitive (keyedTc (List.replicate 16 0) 0) (ivOfSeq 0)
      [0, 0] 2) = some 0x5c5c ∧
    onesFold 0x5c5c ≠ onesFold (paddedWordSum .little [0, 0] 2) ∧
    (aes_decrypt .little toyPrimitive (keyedTc (List.replicate 16 0) 0) (ivOfSeq 0)
      [0x5c, 0x5c] 2).toOption.map (fun r => (r.1.tc_csum, r.2.1)) = some (0, [0, 0])) ∧
    ((aes_decrypt .big toyPrimitive (keyedTc (List.replicate 16 0x5c) 0) (ivOfSeq 0)
      (List.replicate 515 0xff) 515).toOption.map
        (fun r => (csumGrowth 0 r.1.tc_csum, csumAdded .big r.2.1 515,
          onesFold (paddedWordSum .big r.2.1 515))) = some (64783, 2 ^ 32 + 64783, 64784) ∧
    onesFold 64783 ≠ 64784) := by
  constructor
  · set_option maxRecDepth 100000 in decide
  · have hdl : (List.replicate 515 0xff).length = 515 := List.length_replicate _ _
    have hkl := keystream_length .big toyPrimitive (List.replicate 16 0x5c) (ivOfSeq 0) 515
    have hrem : seqRem .big (ivOfSeq 0) = 0 := by rw [seqRem_ivOfSeq]
    rw [hrem] at hkl
    have hsl : scratchLen 0 515 = 528 := by decide
    have hok := do_aes_ok .big toyPrimitive (keyedTc (List.replicate 16 0x5c) 0) (ivOfSeq 0)
      (List.replicate 515 0xff) 515 0 (List.replicate 16 0x5c) rfl (fun _ => rfl)
      (by decide) (by rw [hdl])
    have hz := xorBytes_eq_zipWith
      (keystream .big toyPrimitive (List.replicate 16 0x5c) (ivOfSeq 0) 515)
      (List.replicate 515 0xff) 0 (by rw [hkl, hsl, hdl]; decide)
    rw [hdl] at hz
    rw [hrem, hz] at hok
    have hol : (List.zipWith (fun x y => x ^^^ y) (List.replicate 515 0xff)
        ((keystream .big toyPrimitive (List.replicate 16 0x5c) (ivOfSeq 0) 515).drop 0)).length
        = 515 := by
      rw [List.length_zipWith, List.length_drop, hkl, hsl, hdl]; decide
    have hX : wordSumList .big (oddInt .big)
        (List.zipWith (fun x y => x ^^^ y) (List.replicate 515 0xff)
          ((keystream .big toyPrimitive (List.replicate 16 0x5c) (ivOfSeq 0) 515).drop 0))
        = 2 ^ 32 + 64783 := by
      set_option maxRecDepth 1000000 in decide
    have hY : wordSumList .big (fun b => load .big [b, 0])
        (List.zipWith (fun x y => x ^^^ y) (List.replicate 515 0xff)
          ((keystream .big toyPrimitive (List.replicate 16 0x5c) (ivOfSeq 0) 515).drop 0))
        = 16907279 := by
      set_option maxRecDepth 1000000 in decide
    rw [csumAdded_eq_list _ _ _ hol, hX] at hok
    unfold aes_decrypt
    rw [hok]
    simp only [Except.toOption, Option.map, csumAdded_eq_list _ _ _ hol,
      paddedWordSum_eq_list _ _ _ hol, hX, hY]
    decide

/-- C3, amended. On a keyed context whose primitive does not fail, for every
host byte order, sequence value and span of `len >= 1` bytes for which the
values the call adds to `tc_csum` sum to less than `2^32`, both directions
return the same span `out` and the same accumulator, and the amount the call
has added to `tc_csum` (the growth of the 32-bit accumulator) is, after
ones'-complement folding to 16 bits, the sum of the host-order 16-bit words of
the span as the XOR leaves it, a trailing odd byte zero-padded. That span is the
ciphertext for `aes_encrypt` and the plaintext for `aes_decrypt`. -/
theorem C3_checksum_of_output {K S : Type} (o : ByteOrder) (P : Primitive K) (tc : Tc K S)
    (iv data : List Nat) (len : Nat) (k : K)
    (hk : tc.priv.bind (fun ap => ap.ap_ctx) = some k)
    (hP : ∀ buf, P.updateOk k buf = true)
    (h1 : 1 ≤ len) (hdata : len ≤ data.length)
    (hno : csumAdded o (xorBytes (keystream o P k iv len) len data 0 (seqRem o iv)) len
      < 2 ^ 32) :
    ∃ tc1 out,
      aes_encrypt o P tc iv data len = .ok (tc1, out) ∧
      aes_decrypt o P tc iv data len = .ok (tc1, out, len) ∧
      out = xorBytes (keystream o P k iv len) len data 0 (seqRem o iv) ∧
      tc1.tc_csum = (tc.tc_csum + csumAdded o out len) % 2 ^ 32 ∧
      csumGrowth tc.tc_csum tc1.tc_csum = csumAdded o out len ∧
      onesFold (csumGrowth tc.tc_csum tc1.tc_csum) = onesFold (paddedWordSum o out len) := by
  have hfold : onesFold (csumAdded o
      (xorBytes (keystream o P k iv len) len data 0 (seqRem o iv)) len) =
      onesFold (paddedWordSum o
        (xorBytes (keystream o P k iv len) len data 0 (seqRem o iv)) len) := by
    unfold csumAdded paddedWordSum
    split_ifs
    · exact fold_odd o _ _
    · rfl
  have hg : csumGrowth tc.tc_csum ((tc.tc_csum + csumAdded o
      (xorBytes (keystream o P k iv len) len data 0 (seqRem o iv)) len) % 2 ^ 32) =
      csumAdded o (xorBytes (keystream o P k iv len) len data 0 (seqRem o iv)) len := by
    rw [csumGrowth_add, Nat.mod_eq_of_lt hno]
  refine ⟨_, _, do_aes_ok o P tc iv data len 1 k hk hP h1 hdata, ?_, rfl, rfl, hg, ?_⟩
  · unfold aes_decrypt
    rw [do_aes_ok o P tc iv data len 0 k hk hP h1 hdata]
  · show onesFold (csumGrowth tc.tc_csum _) = _
    rw [hg, hfold]

/-- C3 amended, at key of 16 zero bytes, sequence 0 and 20 bytes `0xAA`. -/
theorem C3_checksum_of_output_witness :
    1 ≤ 20 ∧ 20 ≤ (List.replicate 20 0xAA).length ∧
    csumAdded .little (xorBytes (keystream .little toyPrimitive (List.replicate 16 0)
      (ivOfSeq 0) 20) 20 (List.replicate 20 0xAA) 0 (seqRem .little (ivOfSeq 0))) 20 < 2 ^ 32 ∧
    ∃ tc1 out,
      aes_encrypt .little toyPrimitive (keyedTc (List.replicate 16 0) 0) (ivOfSeq 0)
        (List.replicate 20 0xAA) 20 = .ok (tc1, out) ∧
      aes_decrypt .little toyPrimitive (keyedTc (List.replicate 16 0) 0) (ivOfSeq 0)
        (List.replicate 20 0xAA) 20 = .ok (tc1, out, 20) ∧
      out = xorBytes (keystream .little toyPrimitive (List.replicate 16 0) (ivOfSeq 0) 20) 20
        (List.replicate 20 0xAA) 0 (seqRem .little (ivOfSeq 0)) ∧
      tc1.tc_csum = (0 + csumAdded .little out 20) % 2 ^ 32 ∧
      csumGrowth 0 tc1.tc_csum = csumAdded .little out 20 ∧
      onesFold (csumGrowth 0 tc1.tc_csum) = onesFold (paddedWordSum .little out 20) :=
  have hno : csumAdded .little (xorBytes (keystream .little toyPrimitive (List.replicate 16 0)
      (ivOfSeq 0) 20) 20 (List.replicate 20 0xAA) 0 (seqRem .little (ivOfSeq 0))) 20
      < 2 ^ 32 := by
    set_option maxRecDepth 100000 in decide
  ⟨by decide, by decide, hno,
    C3_checksum_of_output .little toyPrimitive (keyedTc (List.replicate 16 0) 0) (ivOfSeq 0)
      (List.replicate 20 0xAA) 20 (List.replicate 16 0) rfl (fun _ => rfl) (by decide)
      (by decide) hno⟩

/-! ### Chunked calls -/

/-- Splitting a transform inside the first counter block is invisible: when the
first chunk ends before the block does, the two calls and the single call leave
the same bytes. -/
theorem chunk_in_block {K S : Type} (o : ByteOrder) (P : Primitive K) (tc : Tc K S)
    (seq : Nat) (data : List Nat) (L1 L2 : Nat) (k : K)
    (hk : tc.priv.bind (fun ap => ap.ap_ctx) = some k)
    (hP : ∀ buf, P.updateOk k buf = true)
    (hin : seq % 16 + L1 < 16) (h1 : 1 ≤ L1) (h2 : 1 ≤ L2)
    (hdata : L1 + L2 ≤ data.length) :
    twoCalls o P tc seq data L1 L2 =
      some (xorBytes (keystream o P k (ivOfSeq seq) (L1 + L2)) (L1 + L2) data 0
        (seqRem o (ivOfSeq seq))) ∧
    aes_encrypt o P tc (ivOfSeq seq) data (L1 + L2) =
      .ok ({ tc with tc_csum := (tc.tc_csum + csumAdded o
              (xorBytes (keystream o P k (ivOfSeq seq) (L1 + L2)) (L1 + L2) data 0
                (seqRem o (ivOfSeq seq))) (L1 + L2)) % 2 ^ 32 },
           xorBytes (keystream o P k (ivOfSeq seq) (L1 + L2)) (L1 + L2) data 0
             (seqRem o (ivOfSeq seq))) := by
  refine ⟨?_, do_aes_ok o P tc _ data (L1 + L2) 1 k hk hP (by omega) hdata⟩
  have hr1 : seqRem o (ivOfSeq seq) = seq % 16 := seqRem_ivOfSeq o seq
  have hr2 : seqRem o (ivOfSeq (seq + L1)) = seq % 16 + L1 := by
    rw [seqRem_ivOfSeq]; omega
  have hctr : seqCtr o (ivOfSeq (seq + L1)) = seqCtr o (ivOfSeq seq) := by
    rw [seqCtr_ivOfSeq, seqCtr_ivOfSeq]; omega
  have c1 := scratchLen_covers (seq % 16) L1 (by omega)
  have c2 := scratchLen_covers (seq % 16 + L1) L2 (by omega)
  have c := scratchLen_covers (seq % 16) (L1 + L2) (by omega)
  have hA : ∀ j, j < seq % 16 + L1 →
      (keystream o P k (ivOfSeq seq) L1).getD j 0 =
        (keystream o P k (ivOfSeq seq) (L1 + L2)).getD j 0 := fun j hj =>
    keystream_getD_agree o P k _ _ _ _ _ rfl (by rw [hr1]; omega) (by rw [hr1]; omega)
  have hB : ∀ j, j < seq % 16 + L1 + L2 →
      (keystream o P k (ivOfSeq (seq + L1)) L2).getD j 0 =
        (keystream o P k (ivOfSeq seq) (L1 + L2)).getD j 0 := fun j hj =>
    keystream_getD_agree o P k _ _ _ _ _ hctr (by rw [hr2]; omega) (by rw [hr1]; omega)
  have he1 := do_aes_ok o P tc (ivOfSeq seq) data L1 1 k hk hP h1 (by omega)
  have hdroplen : ∀ ks r, (List.drop L1 (xorBytes ks L1 data 0 r)).length = data.length - L1 := by
    intro ks r
    rw [List.length_drop, xorBytes_length]
  have he2 := do_aes_ok o P
    { tc with tc_csum := (tc.tc_csum + csumAdded o
        (xorBytes (keystream o P k (ivOfSeq seq) L1) L1 data 0 (seqRem o (ivOfSeq seq))) L1)
          % 2 ^ 32 }
    (ivOfSeq (seq + L1))
    (List.drop L1 (xorBytes (keystream o P k (ivOfSeq seq) L1) L1 data 0
      (seqRem o (ivOfSeq seq)))) L2 1 k hk hP h2 (by rw [hdroplen]; omega)
  unfold twoCalls aes_encrypt
  rw [he1]
  simp only
  rw [he2]
  simp only
  congr 1
  rw [hr1, hr2]
  generalize keystream o P k (ivOfSeq seq) L1 = ks1 at hA ⊢
  generalize keystream o P k (ivOfSeq (seq + L1)) L2 = ks2 at hB ⊢
  generalize keystream o P k (ivOfSeq seq) (L1 + L2) = ks at hA hB ⊢
  have hd1len : (xorBytes ks1 L1 data 0 (seq % 16)).length = data.length :=
    xorBytes_length _ _ _ _ _
  have htl : (List.take L1 (xorBytes ks1 L1 data 0 (seq % 16))).length = L1 := by
    rw [List.length_take, hd1len]; omega
  have hd1j : ∀ j, (xorBytes ks1 L1 data 0 (seq % 16)).getD j 0 =
      if j < L1 then data.getD j 0 ^^^ ks.getD (seq % 16 + j) 0 else data.getD j 0 := by
    intro j
    rw [xorBytes_getD _ _ _ _ _ _ (by omega)]
    by_cases hj : j < L1
    · rw [if_pos (by omega), if_pos hj, Nat.sub_zero, hA _ (by omega)]
    · rw [if_neg (by omega), if_neg hj]
  apply getD_ext
  · rw [List.length_append, htl, xorBytes_length, hdroplen, xorBytes_length]
    omega
  · intro j _
    rw [xorBytes_getD _ _ _ _ _ _ (by omega)]
    by_cases hj1 : j < L1
    · rw [List.getD_append _ _ _ _ (by rw [htl]; exact hj1), getD_take_lt _ _ _ hj1, hd1j,
        if_pos hj1, if_pos (by omega), Nat.sub_zero]
    · rw [List.getD_append_right _ _ _ _ (by rw [htl]; omega), htl,
        xorBytes_getD _ _ _ _ _ _ (by rw [hdroplen]; omega), getD_drop_add]
      have e1 : L1 + (j - L1) = j := by omega
      rw [e1, hd1j, if_neg hj1]
      by_cases hj2 : j < L1 + L2
      · have e2 : seq % 16 + L1 + (j - L1 - 0) = seq % 16 + (j - 0) := by omega
        rw [if_pos (by omega), if_pos (by omega), e2, hB _ (by omega)]
      · rw [if_neg (by omega), if_neg (by omega)]

/-- C2, as stated, fails on either host: with the stand-in primitive, key of 16
zero bytes, sequence 0 and 32 zero bytes, encrypting 16 bytes with sequence 0
and the next 16 with sequence 16 does not give the bytes of one call over all
32 (the second block of the single call is encrypted under counter + 1, the
second call under counter + 16). -/
theorem C2_counterexample :
    twoCalls .little toyPrimitive (keyedTc (List.replicate 16 0) 0) 0 (List.replicate 32 0) 16 16
      ≠ dataOf (aes_encrypt .little toyPrimitive (keyedTc (List.replicate 16 0) 0) (ivOfSeq 0)
          (List.replicate 32 0) 32) ∧
    twoCalls .big toyPrimitive (keyedTc (List.replicate 16 0) 0) 0 (List.replicate 32 0) 16 16
      ≠ dataOf (aes_encrypt .big toyPrimitive (keyedTc (List.replicate 16 0) 0) (ivOfSeq 0)
          (List.replicate 32 0) 32) := by
  set_option maxRecDepth 100000 in decide

/-- C2, amended. Keystream alignment inside a counter block: on a keyed context
whose primitive does not fail, for every host byte order, sequence value `seq`
and lengths `L1 >= 1`, `L2 >= 1` with `(seq & 0xf) + L1 < 16`, encrypting the
first `L1` bytes with sequence `seq` and the following `L2` bytes with sequence
`seq + L1` returns the bytes that one `aes_encrypt` call over all `L1 + L2`
bytes with sequence `seq` returns. -/
theorem C2_alignment_in_block {K S : Type} (o : ByteOrder) (P : Primitive K) (tc : Tc K S)
    (seq : Nat) (data : List Nat) (L1 L2 : Nat) (k : K)
    (hk : tc.priv.bind (fun ap => ap.ap_ctx) = some k)
    (hP : ∀ buf, P.updateOk k buf = true)
    (hin : (seq &&& 0xf) + L1 < 16) (h1 : 1 ≤ L1) (h2 : 1 ≤ L2)
    (hdata : L1 + L2 ≤ data.length) :
    ∃ out, twoCalls o P tc seq data L1 L2 = some out ∧
      dataOf (aes_encrypt o P tc (ivOfSeq seq) data (L1 + L2)) = some out := by
  rw [and_0xf] at hin
  obtain ⟨ha, hb⟩ := chunk_in_block o P tc seq data L1 L2 k hk hP hin h1 h2 hdata
  exact ⟨_, ha, by rw [hb]; rfl⟩

/-- C2 amended, at key of 16 zero bytes, sequence 3, chunks of 5 and 20 bytes. -/
theorem C2_alignment_in_block_witness :
    (3 &&& 0xf) + 5 < 16 ∧ 1 ≤ 5 ∧ 1 ≤ 20 ∧ 5 + 20 ≤ (List.replicate 25 0xAA).length ∧
    ∃ out, twoCalls .little toyPrimitive (keyedTc (List.replicate 16 0) 0) 3
        (List.replicate 25 0xAA) 5 20 = some out ∧
      dataOf (aes_encrypt .little toyPrimitive (keyedTc (List.replicate 16 0) 0) (ivOfSeq 3)
        (List.replicate 25 0xAA) (5 + 20)) = some out :=
  ⟨by decide, by decide, by decide, by decide,
    C2_alignment_in_block .little toyPrimitive (keyedTc (List.replicate 16 0) 0) 3
      (List.replicate 25 0xAA) 5 20 (List.replicate 16 0) rfl (fun _ => rfl) (by decide)
      (by decide) (by decide) (by decide)⟩

/-! ### The MAC operation -/

/-- C4. MAC capability probe: whenever the length parameter is below 20 on
entry, `hmac_mac` returns with the buffer `out` as it was, no call of the
nested suite's MAC operation, and the length parameter equal to 20. -/
theorem C4_mac_probe {K S : Type} (A : SubAuth S) (tc : Tc K S) (lame : List Nat)
    (iov : List (List Nat)) (iv out : List Nat) (outlen : Int) (h : outlen < 20) :
    hmac_mac A tc lame iov iv out outlen = .ok { out := out, outlen := 20, subCalls := [] } := by
  unfold hmac_mac
  rw [if_pos (by simpa [MAC_LEN] using h)]
  rfl

/-- C4, at a length parameter of 19 and a 32-byte buffer. -/
theorem C4_mac_probe_witness :
    (19 : Int) < 20 ∧
    hmac_mac toySubAuth freshTc (List.replicate 64 0) [[1, 2], [3]] (ivOfSeq 0)
      (List.replicate 32 0xEE) 19 =
        .ok { out := List.replicate 32 0xEE, outlen := 20, subCalls := [] } :=
  ⟨by decide, C4_mac_probe toySubAuth freshTc (List.replicate 64 0) [[1, 2], [3]] (ivOfSeq 0)
    (List.replicate 32 0xEE) 19 (by decide)⟩

/-- C8. MAC delegation: when the length parameter is at least 20 on entry (and
the buffer `out` has the capacity it announces), on a context whose nested
suite writes a tag of 20 to 64 bytes, `hmac_mac` calls the nested suite's MAC
operation once with the same segments and IV, the first 20 bytes of `out` are
the first 20 bytes of that tag, the bytes of `out` after them are untouched,
and the length parameter is exactly 20 on return. -/
theorem C8_mac_delegation {K S : Type} (A : SubAuth S) (tc : Tc K S) (lame : List Nat)
    (iov : List (List Nat)) (iv out : List Nat) (outlen : Int) (s : S)
    (hs : tc.priv.bind (fun ap => ap.ap_hmac) = some s)
    (h : 20 ≤ outlen) (hcap : outlen ≤ (out.length : Int))
    (htag : 20 ≤ (A.mac s iov iv 64).length) (htag64 : (A.mac s iov iv 64).length ≤ 64) :
    ∃ r, hmac_mac A tc lame iov iv out outlen = .ok r ∧
      r.out.take 20 = (A.mac s iov iv 64).take 20 ∧
      r.out.drop 20 = out.drop 20 ∧
      r.outlen = 20 ∧
      r.subCalls = [(iov, iv)] := by
  have hout : 20 ≤ out.length := by omega
  have e1 : ¬ outlen < (MAC_LEN : Int) := by simp [MAC_LEN]; omega
  have e2 : ¬ 64 < (A.mac s iov iv 64).length := by omega
  have e3 : ¬ out.length < MAC_LEN := by simp [MAC_LEN]; omega
  have htake : ((A.mac s iov iv 64 ++ List.drop (A.mac s iov iv 64).length lame).take 20).length
      = 20 := by
    rw [List.length_take, List.length_append]; omega
  refine ⟨_, by unfold hmac_mac; rw [if_neg e1, hs]; simp only; rw [if_neg e2, if_neg e3],
    ?_, ?_, rfl, rfl⟩
  · show List.take 20 (List.take MAC_LEN _ ++ List.drop MAC_LEN out) = _
    rw [MAC_LEN, List.take_left' htake, List.take_append_of_le_length htag]
  · show List.drop 20 (List.take MAC_LEN _ ++ List.drop MAC_LEN out) = _
    rw [MAC_LEN, List.drop_left' htake]

/-- C8, at a length parameter of 32, a 32-byte buffer and the stand-in nested suite. -/
theorem C8_mac_delegation_witness :
    (20 : Int) ≤ 32 ∧ (32 : Int) ≤ ((List.replicate 32 0xEE).length : Int) ∧
    20 ≤ (toySubAuth.mac () [[1, 2], [3]] (ivOfSeq 0) 64).length ∧
    (toySubAuth.mac () [[1, 2], [3]] (ivOfSeq 0) 64).length ≤ 64 ∧
    ∃ r, hmac_mac toySubAuth freshTc (List.replicate 64 0) [[1, 2], [3]] (ivOfSeq 0)
        (List.replicate 32 0xEE) 32 = .ok r ∧
      r.out.take 20 = (toySubAuth.mac () [[1, 2], [3]] (ivOfSeq 0) 64).take 20 ∧
      r.out.drop 20 = (List.replicate 32 0xEE).drop 20 ∧
      r.outlen = 20 ∧
      r.subCalls = [([[1, 2], [3]], ivOfSeq 0)] :=
  ⟨by decide, by decide, by decide, by decide,
    C8_mac_delegation toySubAuth freshTc (List.replicate 64 0) [[1, 2], [3]] (ivOfSeq 0)
      (List.replicate 32 0xEE) 32 () rfl (by decide) (by decide) (by decide) (by decide)⟩

/-! ### Key installation -/

/-- C7. IV-mode probe: for a positive mode number `IVMODE_SEQ`, `aes_next_iv`
fails (on its assertion) if and only if the length parameter is non-zero on
entry; when it is zero the call returns with the buffer `out` unchanged and
the length parameter equal to `-IVMODE_SEQ`, which is negative. -/
theorem C7_next_iv (IVMODE_SEQ : Int) (hpos : positiveMode IVMODE_SEQ) (out : List Nat)
    (outlen : Int) :
    ((∃ e, aes_next_iv IVMODE_SEQ out outlen = .error e) ↔ outlen ≠ 0) ∧
    (outlen ≠ 0 → aes_next_iv IVMODE_SEQ out outlen = .error .assertion) ∧
    (outlen = 0 → aes_next_iv IVMODE_SEQ out outlen = .ok (out, -IVMODE_SEQ) ∧
      -IVMODE_SEQ < 0) := by
  unfold aes_next_iv
  refine ⟨?_, ?_, ?_⟩
  · by_cases h : outlen ≠ 0
    · rw [if_pos h]
      exact ⟨fun _ => h, fun _ => ⟨_, rfl⟩⟩
    · rw [if_neg h]
      constructor
      · rintro ⟨e, he⟩
        cases he
      · intro h2
        exact absurd h2 h
  · intro h
    rw [if_pos h]
  · intro h
    rw [if_neg (by simp [h])]
    unfold positiveMode at hpos
    exact ⟨rfl, by omega⟩

/-- C7, at mode number 1, with length parameters 0 and 5. -/
theorem C7_next_iv_witness :
    positiveMode 1 ∧ (5 : Int) ≠ 0 ∧
    aes_next_iv 1 [9, 9] 5 = .error .assertion ∧
    aes_next_iv 1 [9, 9] 0 = .ok ([9, 9], -1) ∧ (-1 : Int) < 0 :=
  have hpos : positiveMode 1 := by unfold positiveMode; decide
  ⟨hpos, by decide,
    (C7_next_iv 1 hpos [9, 9] 5).2.1 (by decide),
    (C7_next_iv 1 hpos [9, 9] 0).2.2 rfl⟩

theorem aes_spec_iterate (o : ByteOrder) (algo n : Nat) :
    (aes_spec o)^[n + 1] (specStart algo) = { sc_algo := htonl o algo, init := 1 } := by
  induction n with
  | zero => rfl
  | succ n ih =>
    rw [Function.iterate_succ_apply', ih]
    rfl

/-- C9. Lazy descriptor conversion: for every `n >= 1`, after `n` calls of
`aes_spec` the algorithm identifier is `htonl(TC_AES128_HMAC_SHA2)`; the state
after `n` calls is the state after the first call, which did the conversion and
set the flag, and one more call leaves descriptor and flag unchanged. -/
theorem C9_spec_once (o : ByteOrder) (algo n : Nat) (hn : 1 ≤ n) :
    ((aes_spec o)^[n] (specStart algo)).sc_algo = htonl o algo ∧
    (aes_spec o)^[n] (specStart algo) = aes_spec o (specStart algo) ∧
    aes_spec o (specStart algo) = { sc_algo := htonl o algo, init := 1 } ∧
    aes_spec o ((aes_spec o)^[n] (specStart algo)) = (aes_spec o)^[n] (specStart algo) := by
  obtain ⟨m, rfl⟩ : ∃ m, n = m + 1 := ⟨n - 1, by omega⟩
  rw [aes_spec_iterate]
  exact ⟨rfl, rfl, rfl, rfl⟩

/-- C9, at three calls on a little-endian host with identifier `0x100`. -/
theorem C9_spec_once_witness :
    1 ≤ 3 ∧
    ((aes_spec .little)^[3] (specStart 0x100)).sc_algo = htonl .little 0x100 ∧
    (aes_spec .little)^[3] (specStart 0x100) = aes_spec .little (specStart 0x100) ∧
    aes_spec .little (specStart 0x100) = { sc_algo := htonl .little 0x100, init := 1 } ∧
    aes_spec .little ((aes_spec .little)^[3] (specStart 0x100)) =
      (aes_spec .little)^[3] (specStart 0x100) :=
  ⟨by decide, C9_spec_once .little 0x100 3 (by decide)⟩

/-! ### Teardown -/

/-- C6, evaluated: on the context `aes_init` creates, the first `aes_finish`
releases the two keyed states, the nested suite, its block and the private
block, once each; `tc` is unchanged by it, so the second `aes_finish` passes the
null check and works on the released block: it does not return as a no-op. -/
theorem C6_finish_twice {K S : Type} (A : SubAuth S) (p : Proc K S) :
    ∃ p1, aes_finish (aes_init A p) = .ok p1 ∧
      p1.tc = (aes_init A p).tc ∧
      p1.released = p.released ++ [Resource.bulkCtx, Resource.ackCtx, Resource.subAuth,
        Resource.subBlock, Resource.privBlock] ∧
      aes_finish p1 = .error .undefined := by
  refine ⟨_, rfl, rfl, ?_, rfl⟩
  simp [aes_init]

/-! ### Every outcome of `do_aes` -/

theorem do_aes_ok_at {K S : Type} (o : ByteOrder) (P : Primitive K) (tc : Tc K S)
    (iv data : List Nat) (len enc : Nat) (k : K)
    (hk : tc.priv.bind (fun ap => ap.ap_ctx) = some k)
    (hP : P.updateOk k (scratch o iv len) = true)
    (h1 : 1 ≤ len) (hdata : len ≤ data.length) :
    do_aes o P tc iv data len enc =
      .ok ({ tc with tc_csum := (tc.tc_csum + csumAdded o
              (xorBytes (keystream o P k iv len) len data 0 (seqRem o iv)) len) % 2 ^ 32 },
           xorBytes (keystream o P k iv len) len data 0 (seqRem o iv)) := by
  have hne : ¬ len = 0 := by omega
  have hklen := keystream_length o P k iv len
  have hcov := scratchLen_covers (seqRem o iv) len (seqRem_lt o iv)
  obtain ⟨hpb, hd, hc⟩ := loops_spec o (keystream o P k iv len) data tc.tc_csum len
    (seqRem o iv) h1 hdata
  unfold keystream seqRem at hklen hpb hd hc
  unfold seqRem at hcov
  unfold scratch seqRem seqCtr at hP
  unfold keystream seqRem
  simp only at hklen hpb hd hc hcov
  simp only [do_aes, hne, if_false, hk, EVP_EncryptUpdate, hP, if_true, hklen, ne_eq,
    not_true_eq_false, not_lt.mpr hdata, hpb, hd, hc, not_le, not_lt, hcov.1,
    Nat.not_lt.mpr hcov.1]
  rw [if_neg (by omega)]

/-- The outcome of `do_aes` on every input: the four ways it can end early, in
the order the code reaches them, and the closed form of its result. -/
theorem do_aes_eq {K S : Type} (o : ByteOrder) (P : Primitive K) (tc : Tc K S)
    (iv data : List Nat) (len enc : Nat) :
    do_aes o P tc iv data len enc =
      if len = 0 then .error .assertion else
      match tc.priv.bind (fun ap => ap.ap_ctx) with
      | none => .error .undefined
      | some k =>
        if P.updateOk k (scratch o iv len) = true then
          if data.length < len then .error .undefined else
          .ok ({ tc with tc_csum := (tc.tc_csum + csumAdded o
                  (xorBytes (keystream o P k iv len) len data 0 (seqRem o iv)) len) % 2 ^ 32 },
               xorBytes (keystream o P k iv len) len data 0 (seqRem o iv))
        else .error .fatal := by
  by_cases h0 : len = 0
  · simp only [do_aes, h0, if_true]
  · rw [if_neg h0]
    cases hk : tc.priv.bind (fun ap => ap.ap_ctx) with
    | none => simp only [do_aes, h0, if_false, hk]
    | some k =>
      simp only
      by_cases hP : P.updateOk k (scratch o iv len) = true
      · rw [if_pos hP]
        by_cases hd : data.length < len
        · rw [if_pos hd]
          have hklen := keystream_length o P k iv len
          unfold keystream seqRem at hklen
          unfold scratch seqRem seqCtr at hP
          simp only at hklen
          simp only [do_aes, h0, if_false, hk, EVP_EncryptUpdate, hP, if_true, hklen, ne_eq,
            not_true_eq_false, hd]
        · rw [if_neg hd]
          exact do_aes_ok_at o P tc iv data len enc k hk hP (by omega) (by omega)
      · rw [if_neg hP]
        unfold scratch seqRem seqCtr at hP
        simp only [do_aes, h0, if_false, hk, EVP_EncryptUpdate, hP, Bool.false_eq_true]

/-! ### Return value, sizing, preconditions -/

/-- C11. Whenever `aes_decrypt` returns, the value it returns is `len`, the span
has the length it had before, and its first `len` bytes are all there (the call
returned, so `1 <= len` and the span held at least `len` bytes). -/
theorem C11_decrypt_returns_len {K S : Type} (o : ByteOrder) (P : Primitive K) (tc : Tc K S)
    (iv data : List Nat) (len : Nat) (tc1 : Tc K S) (d1 : List Nat) (r : Nat)
    (h : aes_decrypt o P tc iv data len = .ok (tc1, d1, r)) :
    r = len ∧ d1.length = data.length ∧ (d1.take len).length = len ∧ 1 ≤ len := by
  unfold aes_decrypt at h
  rw [do_aes_eq] at h
  by_cases h0 : len = 0
  · rw [if_pos h0] at h
    cases h
  · rw [if_neg h0] at h
    cases hk : tc.priv.bind (fun ap => ap.ap_ctx) with
    | none =>
      rw [hk] at h
      cases h
    | some k =>
      rw [hk] at h
      simp only at h
      by_cases hP : P.updateOk k (scratch o iv len) = true
      · rw [if_pos hP] at h
        by_cases hd : data.length < len
        · rw [if_pos hd] at h
          cases h
        · rw [if_neg hd] at h
          simp only [Except.ok.injEq, Prod.mk.injEq] at h
          obtain ⟨_, hd1, hr⟩ := h
          subst hd1 hr
          refine ⟨rfl, xorBytes_length _ _ _ _ _, ?_, by omega⟩
          rw [List.length_take, xorBytes_length]
          omega
      · rw [if_neg hP] at h
        cases h

/-- C11, at key of 16 zero bytes, sequence 0 and the two bytes `0x5c 0x5c`. -/
theorem C11_decrypt_returns_len_witness :
    aes_decrypt .little toyPrimitive (keyedTc (List.replicate 16 0) 0) (ivOfSeq 0)
      [0x5c, 0x5c] 2 = .ok (keyedTc (List.replicate 16 0) 0, [0, 0], 2) ∧
    2 = 2 ∧ [0, 0].length = [0x5c, 0x5c].length ∧ ([0, 0].take 2).length = 2 ∧ 1 ≤ 2 :=
  have h : aes_decrypt .little toyPrimitive (keyedTc (List.replicate 16 0) 0) (ivOfSeq 0)
      [0x5c, 0x5c] 2 = .ok (keyedTc (List.replicate 16 0) 0, [0, 0], 2) := by
    set_option maxRecDepth 100000 in rfl
  ⟨h, C11_decrypt_returns_len .little toyPrimitive (keyedTc (List.replicate 16 0) 0)
    (ivOfSeq 0) [0x5c, 0x5c] 2 _ _ _ h⟩

/-- C12. Block-count derivation: for every `rem` in `0..15` and every
`len >= 1`, the scratch size `blen` that `do_aes` computes is
`16 * ceil((rem + len) / 16)`. -/
theorem C12_block_count (rem len : Nat) (hrem : rem < 16) (hlen : 1 ≤ len) :
    scratchLen rem len = 16 * ((rem + len + 15) / 16) := by
  rw [scratchLen_eq]
  split_ifs <;> omega

/-- C12, at `rem = 5`, `len = 20`: two blocks. -/
theorem C12_block_count_witness :
    5 < 16 ∧ 1 ≤ 20 ∧ scratchLen 5 20 = 16 * ((5 + 20 + 15) / 16) :=
  ⟨by decide, by decide, C12_block_count 5 20 (by decide) (by decide)⟩

/-- C13. The sizing assertions never fire: for every sequence value and every
`len >= 1`, with `rem` the low four bits of the sequence value, `rem + len` is at
most `blen`, `blen - (rem + len)` is below 16, the buffer the block cipher leaves
has `blen` bytes, so every index `rem + j` with `j < len` that the XOR loops
read lies inside it, and no call of `do_aes` ends in a failed assertion. -/
theorem C13_sizing_asserts {K S : Type} (o : ByteOrder) (P : Primitive K) (k : K)
    (iv : List Nat) (len : Nat) (h1 : 1 ≤ len) :
    seqRem o iv + len ≤ scratchLen (seqRem o iv) len ∧
    scratchLen (seqRem o iv) len - (seqRem o iv + len) < 16 ∧
    (keystream o P k iv len).length = scratchLen (seqRem o iv) len ∧
    (∀ j, j < len → seqRem o iv + j < (keystream o P k iv len).length) ∧
    (∀ (tc : Tc K S) (data : List Nat) (enc : Nat),
      do_aes o P tc iv data len enc ≠ .error .assertion) := by
  have hcov := scratchLen_covers (seqRem o iv) len (seqRem_lt o iv)
  have hklen := keystream_length o P k iv len
  refine ⟨hcov.1, hcov.2, hklen, fun j hj => by omega, ?_⟩
  intro tc data enc
  rw [do_aes_eq, if_neg (by omega)]
  cases tc.priv.bind (fun ap => ap.ap_ctx) with
  | none => simp
  | some k2 =>
    simp only
    split_ifs <;> simp

/-- C13, at sequence 3 and 20 bytes. -/
theorem C13_sizing_asserts_witness :
    1 ≤ 20 ∧
    seqRem .little (ivOfSeq 3) + 20 ≤ scratchLen (seqRem .little (ivOfSeq 3)) 20 ∧
    scratchLen (seqRem .little (ivOfSeq 3)) 20 - (seqRem .little (ivOfSeq 3) + 20) < 16 :=
  have h := C13_sizing_asserts (S := Unit) .little toyPrimitive (List.replicate 16 0)
    (ivOfSeq 3) 20 (by decide)
  ⟨by decide, h.1, h.2.1⟩

/-! ### The XOR step and chunking, claim by claim -/

/-- C15. XOR step: on a keyed context whose primitive does not fail, for every
sequence value and every span of at least `len >= 1` bytes, `do_aes` returns a
span of the same length in which byte `j < len` is the byte before XOR
`keystream[rem + j]` and every byte from `len` on is unchanged; `rem` is the low
four bits of the sequence value, the keystream is the block cipher run over the
scratch buffer, and the word loop followed by the byte loop is the XOR of the
`len` bytes one by one, whatever buffer they read from. -/
theorem C15_xor_step {K S : Type} (o : ByteOrder) (P : Primitive K) (tc : Tc K S)
    (iv data : List Nat) (len enc : Nat) (k : K)
    (hk : tc.priv.bind (fun ap => ap.ap_ctx) = some k)
    (hP : ∀ buf, P.updateOk k buf = true)
    (h1 : 1 ≤ len) (hdata : len ≤ data.length) :
    (∃ tc1 out, do_aes o P tc iv data len enc = .ok (tc1, out) ∧
      out.length = data.length ∧
      (∀ j, j < len → out.getD j 0 =
        data.getD j 0 ^^^ (keystream o P k iv len).getD (seqRem o iv + j) 0) ∧
      (∀ j, len ≤ j → out.getD j 0 = data.getD j 0)) ∧
    keystream o P k iv len =
      ecb (P.encryptBlock k) (scratchLen (seqRem o iv) len / 16) (scratch o iv len) ∧
    (∀ (ks : List Nat) (c rem : Nat),
      (oddStep o (byteLoop o ks
        (wordLoop o ks len
          { data := data, tc_csum := c, len := len, pd := 0, pb := rem, csum := 0, i := 0 }).len
        { wordLoop o ks len
          { data := data, tc_csum := c, len := len, pd := 0, pb := rem, csum := 0, i := 0 }
          with i := 0 })).data = xorBytes ks len data 0 rem) := by
  refine ⟨⟨_, _, do_aes_ok o P tc iv data len enc k hk hP h1 hdata, xorBytes_length _ _ _ _ _,
    ?_, ?_⟩, ?_, ?_⟩
  · intro j hj
    rw [xorBytes_getD _ _ _ _ _ _ (by omega), if_pos (by omega), Nat.sub_zero]
  · intro j hj
    rw [xorBytes_getD _ _ _ _ _ _ (by omega), if_neg (by omega)]
  · simp only [keystream, scratch, seqRem, seqCtr]
  · intro ks c rem
    exact (loops_spec o ks data c len rem h1 hdata).2.1

/-- C15, at key of 16 zero bytes, sequence 3 and 20 bytes `0xAA`. -/
theorem C15_xor_step_witness :
    1 ≤ 20 ∧ 20 ≤ (List.replicate 20 0xAA).length ∧
    ∃ tc1 out, do_aes .little toyPrimitive (keyedTc (List.replicate 16 0) 0) (ivOfSeq 3)
        (List.replicate 20 0xAA) 20 1 = .ok (tc1, out) ∧
      out.length = (List.replicate 20 0xAA).length ∧
      (∀ j, j < 20 → out.getD j 0 = (List.replicate 20 0xAA).getD j 0 ^^^
        (keystream .little toyPrimitive (List.replicate 16 0) (ivOfSeq 3) 20).getD
          (seqRem .little (ivOfSeq 3) + j) 0) ∧
      (∀ j, 20 ≤ j → out.getD j 0 = (List.replicate 20 0xAA).getD j 0) :=
  ⟨by decide, by decide,
    (C15_xor_step .little toyPrimitive (keyedTc (List.replicate 16 0) 0) (ivOfSeq 3)
      (List.replicate 20 0xAA) 20 1 (List.replicate 16 0) rfl (fun _ => rfl) (by decide)
      (by decide)).1⟩

/-- C20. Chunking inside one counter block is transparent: on a keyed context
whose primitive does not fail, for every sequence value `seq` and lengths
`L1 >= 1`, `L2 >= 1` with `(seq & 0xf) + L1 < 16`, transforming the first `L1`
bytes with sequence `seq` and the next `L2` bytes with sequence `seq + L1`
leaves the bytes that one call over all `L1 + L2` bytes with sequence `seq`
leaves, in either direction. -/
theorem C20_chunk_transparent {K S : Type} (o : ByteOrder) (P : Primitive K) (tc : Tc K S)
    (seq : Nat) (data : List Nat) (L1 L2 : Nat) (k : K)
    (hk : tc.priv.bind (fun ap => ap.ap_ctx) = some k)
    (hP : ∀ buf, P.updateOk k buf = true)
    (hin : (seq &&& 0xf) + L1 < 16) (h1 : 1 ≤ L1) (h2 : 1 ≤ L2)
    (hdata : L1 + L2 ≤ data.length) :
    twoCalls o P tc seq data L1 L2 =
      some (xorBytes (keystream o P k (ivOfSeq seq) (L1 + L2)) (L1 + L2) data 0
        (seqRem o (ivOfSeq seq))) ∧
    (∀ enc, dataOf (do_aes o P tc (ivOfSeq seq) data (L1 + L2) enc) =
      some (xorBytes (keystream o P k (ivOfSeq seq) (L1 + L2)) (L1 + L2) data 0
        (seqRem o (ivOfSeq seq)))) := by
  rw [and_0xf] at hin
  refine ⟨(chunk_in_block o P tc seq data L1 L2 k hk hP hin h1 h2 hdata).1, ?_⟩
  intro enc
  rw [do_aes_ok o P tc _ data (L1 + L2) enc k hk hP (by omega) hdata]
  rfl

/-- C20, at key of 16 zero bytes, sequence 0x21, chunks of 14 and 50 bytes. -/
theorem C20_chunk_transparent_witness :
    (0x21 &&& 0xf) + 14 < 16 ∧ 1 ≤ 14 ∧ 1 ≤ 50 ∧ 14 + 50 ≤ (List.replicate 64 0x33).length ∧
    twoCalls .big toyPrimitive (keyedTc (List.replicate 16 0) 0) 0x21
        (List.replicate 64 0x33) 14 50 =
      some (xorBytes (keystream .big toyPrimitive (List.replicate 16 0) (ivOfSeq 0x21) (14 + 50))
        (14 + 50) (List.replicate 64 0x33) 0 (seqRem .big (ivOfSeq 0x21))) :=
  ⟨by decide, by decide, by decide, by decide,
    (C20_chunk_transparent .big toyPrimitive (keyedTc (List.replicate 16 0) 0) 0x21
      (List.replicate 64 0x33) 14 50 (List.replicate 16 0) rfl (fun _ => rfl) (by decide)
      (by decide) (by decide) (by decide)).1⟩

/-! ### The counter blocks -/

theorem leBytes_congr (n x y : Nat) (h : x % 256 ^ n = y % 256 ^ n) :
    leBytes n x = leBytes n y := by
  induction n generalizing x y with
  | zero => rfl
  | succ n ih =>
    rw [pow_succ, Nat.mul_comm (256 ^ n) 256, Nat.mod_mul, Nat.mod_mul] at h
    generalize hA : x / 256 % 256 ^ n = A at h
    generalize hB : y / 256 % 256 ^ n = B at h
    have h0 : x % 256 = y % 256 := by omega
    have h1 : x / 256 % 256 ^ n = y / 256 % 256 ^ n := by omega
    rw [leBytes, leBytes, h0, ih _ _ h1]

theorem store_congr (o : ByteOrder) (x y : Nat) (h : x % 2 ^ 64 = y % 2 ^ 64) :
    store o 8 x = store o 8 y := by
  have h2 : x % 256 ^ 8 = y % 256 ^ 8 := by
    have e : (256 : Nat) ^ 8 = 2 ^ 64 := by norm_num
    rw [e]; exact h
  cases o <;> simp only [store, leBytes_congr 8 x y h2]

theorem store_inj (o : ByteOrder) (x y : Nat) (h : store o 8 x = store o 8 y) :
    x % 2 ^ 64 = y % 2 ^ 64 := by
  have e : (256 : Nat) ^ 8 = 2 ^ 64 := by norm_num
  have h2 : leBytes 8 x = leBytes 8 y := by
    cases o
    · exact h
    · exact List.reverse_injective h
  have := congrArg leVal h2
  rwa [leVal_leBytes, leVal_leBytes, e] at this

/-- Block `i` of the filled scratch buffer: eight zero bytes stored as a 64-bit
word, then the host-order bytes of `ctr + i * inc`. -/
theorem fill_block (o : ByteOrder) (inc n ctr i : Nat) (hi : i < n) :
    ((fillBlocks o inc n ctr).drop (16 * i)).take 16 =
      store o 8 0 ++ store o 8 (ctr + i * inc) := by
  induction n generalizing ctr i with
  | zero => omega
  | succ n ih =>
    have h16 : (store o 8 0 ++ store o 8 ctr).length = 16 := by simp [store_length]
    rw [fillBlocks]
    cases i with
    | zero =>
      rw [Nat.mul_zero, List.drop_zero, List.take_left' h16, Nat.zero_mul, Nat.add_zero]
    | succ i =>
      have e : 16 * (i + 1) = (store o 8 0 ++ store o 8 ctr).length + 16 * i := by
        rw [h16]; omega
      rw [e, List.drop_append, ih _ _ (by omega)]
      congr 1
      apply store_congr
      have e2 : (i + 1) * inc = i * inc + inc := Nat.succ_mul i inc
      rw [e2]
      omega

theorem counterBlock_eq (o : ByteOrder) (iv : List Nat) (len i : Nat)
    (hi : i < scratchLen (seqRem o iv) len / 16) :
    counterBlock o iv len i = store o 8 0 ++ store o 8 (seqCtr o iv + i * xhtobe64 o 1) := by
  unfold counterBlock scratch
  rw [shr4_eq]
  exact fill_block o _ _ _ i hi

/-- On a big-endian host block `i` is eight zero bytes and the big-endian
encoding of `(seq & ~0xf) + i`. -/
theorem counterBlock_big (seq len i : Nat)
    (hi : i < scratchLen (seqRem .big (ivOfSeq seq)) len / 16) :
    counterBlock .big (ivOfSeq seq) len i =
      List.replicate 8 0 ++ ivOfSeq (clearLow4 (seq % 2 ^ 64) + i) := by
  rw [counterBlock_eq _ _ _ _ hi, seqCtr, seq_decode]
  have e1 : xhtobe64 .big 1 = 1 := by decide
  have e0 : store .big 8 0 = List.replicate 8 0 := by decide
  rw [e1, e0, Nat.mul_one]
  rfl

/-- On a big-endian host two blocks of one call differ as long as the call has
at most `2^64` blocks. -/
theorem counterBlock_big_distinct (iv : List Nat) (len i j : Nat)
    (hi : i < scratchLen (seqRem .big iv) len / 16)
    (hj : j < scratchLen (seqRem .big iv) len / 16)
    (hn : scratchLen (seqRem .big iv) len / 16 ≤ 2 ^ 64) (hij : i ≠ j) :
    counterBlock .big iv len i ≠ counterBlock .big iv len j := by
  rw [counterBlock_eq _ _ _ _ hi, counterBlock_eq _ _ _ _ hj]
  intro h
  have h2 := store_inj _ _ _ (List.append_cancel_left h)
  have e1 : xhtobe64 .big 1 = 1 := by decide
  rw [e1] at h2
  omega

/-- On a little-endian host the increment is `2^56`: two blocks of one call
coincide exactly when their indices agree modulo 256. -/
theorem counterBlock_little_iff (iv : List Nat) (len i j : Nat)
    (hi : i < scratchLen (seqRem .little iv) len / 16)
    (hj : j < scratchLen (seqRem .little iv) len / 16) :
    counterBlock .little iv len i = counterBlock .little iv len j ↔ i % 256 = j % 256 := by
  rw [counterBlock_eq _ _ _ _ hi, counterBlock_eq _ _ _ _ hj]
  have e1 : xhtobe64 .little 1 = 72057594037927936 := by decide
  rw [e1]
  constructor
  · intro h
    have h2 := store_inj _ _ _ (List.append_cancel_left h)
    omega
  · intro h
    rw [store_congr .little (seqCtr .little iv + i * 72057594037927936)
      (seqCtr .little iv + j * 72057594037927936) (by omega)]

/-- C14, evaluated on a little-endian host: for sequence 16 and one byte, the
block `do_aes` hands to the cipher carries the counter in host order, `0x10`
in byte 8, while eight zero bytes followed by the big-endian encoding of
`(seq & ~0xf) + 0` have it in byte 15, which is what a big-endian host produces. -/
theorem C14_counter_fill_little :
    counterBlock .little (ivOfSeq 16) 1 0 = [0, 0, 0, 0, 0, 0, 0, 0, 16, 0, 0, 0, 0, 0, 0, 0] ∧
    List.replicate 8 0 ++ ivOfSeq (clearLow4 16 + 0) =
      [0, 0, 0, 0, 0, 0, 0, 0, 0, 0, 0, 0, 0, 0, 0, 16] ∧
    counterBlock .big (ivOfSeq 16) 1 0 = List.replicate 8 0 ++ ivOfSeq (clearLow4 16 + 0) ∧
    counterBlock .little (ivOfSeq 16) 1 0 ≠ List.replicate 8 0 ++ ivOfSeq (clearLow4 16 + 0) := by
  decide

/-- Whatever the increment `inc` is, two blocks of the filled scratch buffer
coincide exactly when their counters `ctr + i * inc` agree modulo `2^64`. -/
theorem fill_block_eq_iff (o : ByteOrder) (inc n ctr i j : Nat) (hi : i < n) (hj : j < n) :
    ((fillBlocks o inc n ctr).drop (16 * i)).take 16 =
      ((fillBlocks o inc n ctr).drop (16 * j)).take 16 ↔
    (ctr + i * inc) % 2 ^ 64 = (ctr + j * inc) % 2 ^ 64 := by
  rw [fill_block o inc n ctr i hi, fill_block o inc n ctr j hj]
  constructor
  · intro h
    exact store_inj _ _ _ (List.append_cancel_left h)
  · intro h
    rw [store_congr o _ _ h]

/-- With the increment the modelled `xhtobe64` gives on a little-endian host,
`2^56`, a call with sequence 0 and 4097 bytes uses 257 blocks and block 256 is
block 0 again. -/
theorem counterBlock_little_wraps :
    scratchLen (seqRem .little (ivOfSeq 0)) 4097 / 16 = 257 ∧
    counterBlock .little (ivOfSeq 0) 4097 0 = counterBlock .little (ivOfSeq 0) 4097 256 := by
  have hn : scratchLen (seqRem .little (ivOfSeq 0)) 4097 / 16 = 257 := by
    rw [seqRem_ivOfSeq]; decide
  exact ⟨hn, (counterBlock_little_iff (ivOfSeq 0) 4097 0 256 (by rw [hn]; decide)
    (by rw [hn]; decide)).mpr (by decide)⟩

/-! ### The checksum, claim by claim -/

theorem csumAdded_odd (o : ByteOrder) (out : List Nat) (len : Nat) (hodd : len % 2 = 1) :
    csumAdded o out len =
      wordsFrom o out ((len - 1) / 2) 0 + oddInt o (out.getD (len - 1) 0) := by
  have e : len / 2 = (len - 1) / 2 := by omega
  rw [csumAdded, if_pos hodd, e]

theorem oddInt_little (b : Nat) : oddInt .little b = b := by
  simp [oddInt, load, leVal]

/-- Whenever `do_aes` returns, the accumulator has grown by the checksum of the
span it returns. -/
theorem do_aes_csum {K S : Type} (o : ByteOrder) (P : Primitive K) (tc : Tc K S)
    (iv data : List Nat) (len enc : Nat) (tc1 : Tc K S) (out : List Nat)
    (h : do_aes o P tc iv data len enc = .ok (tc1, out)) :
    tc1.tc_csum = (tc.tc_csum + csumAdded o out len) % 2 ^ 32 := by
  rw [do_aes_eq] at h
  by_cases h0 : len = 0
  · rw [if_pos h0] at h
    cases h
  · rw [if_neg h0] at h
    cases hk : tc.priv.bind (fun ap => ap.ap_ctx) with
    | none =>
      rw [hk] at h
      cases h
    | some k =>
      rw [hk] at h
      simp only at h
      by_cases hP : P.updateOk k (scratch o iv len) = true
      · rw [if_pos hP] at h
        by_cases hd : data.length < len
        · rw [if_pos hd] at h
          cases h
        · rw [if_neg hd] at h
          simp only [Except.ok.injEq, Prod.mk.injEq] at h
          obtain ⟨htc, hout⟩ := h
          subst htc hout
          rfl
      · rw [if_neg hP] at h
        cases h

/-- C16, as stated, fails on a big-endian host: with the stand-in primitive,
key of 16 zero bytes, sequence 0 and the one-byte span `[0]`, the call leaves
the byte `0x5c` and adds `0x5c000000` to a zero accumulator, not `0x5c`. -/
theorem C16_counterexample :
    dataOf (aes_encrypt .big toyPrimitive (keyedTc (List.replicate 16 0) 0) (ivOfSeq 0) [0] 1)
      = some [0x5c] ∧
    csumOf (aes_encrypt .big toyPrimitive (keyedTc (List.replicate 16 0) 0) (ivOfSeq 0) [0] 1)
      = some 0x5c000000 ∧
    (0x5c000000 : Nat) ≠ 0x5c := by
  set_option maxRecDepth 100000 in decide

/-- C16, amended. Odd-length boundary: on a keyed context whose primitive does
not fail, for every span of odd length `len` whose last byte and keystream byte
are bytes, the last byte of the result is the last byte before XOR
`keystream[rem + len - 1]`, a value in `0..255`; the accumulator grows (modulo
`2^32`) by the `(len - 1) / 2` host-order 16-bit words of the bytes before it
plus that byte placed in the first byte of a zeroed `int`. On a little-endian
host that is exactly the value of the byte; on either host it folds (ones'
complement) to the word made of the byte and a zero byte. -/
theorem C16_odd_length {K S : Type} (o : ByteOrder) (P : Primitive K) (tc : Tc K S)
    (iv data : List Nat) (len enc : Nat) (k : K)
    (hk : tc.priv.bind (fun ap => ap.ap_ctx) = some k)
    (hP : ∀ buf, P.updateOk k buf = true)
    (hodd : len % 2 = 1) (hdata : len ≤ data.length)
    (hb : data.getD (len - 1) 0 < 256)
    (hks : (keystream o P k iv len).getD (seqRem o iv + (len - 1)) 0 < 256) :
    ∃ tc1 out, do_aes o P tc iv data len enc = .ok (tc1, out) ∧
      out.getD (len - 1) 0 =
        data.getD (len - 1) 0 ^^^ (keystream o P k iv len).getD (seqRem o iv + (len - 1)) 0 ∧
      out.getD (len - 1) 0 < 256 ∧
      tc1.tc_csum = (tc.tc_csum + (wordsFrom o out ((len - 1) / 2) 0 +
        oddInt o (out.getD (len - 1) 0))) % 2 ^ 32 ∧
      (o = .little → oddInt o (out.getD (len - 1) 0) = out.getD (len - 1) 0) ∧
      (∀ w, onesFold (w + oddInt o (out.getD (len - 1) 0)) =
        onesFold (w + load o [out.getD (len - 1) 0, 0])) := by
  have h1 : 1 ≤ len := by omega
  have hx : (xorBytes (keystream o P k iv len) len data 0 (seqRem o iv)).getD (len - 1) 0 =
      data.getD (len - 1) 0 ^^^ (keystream o P k iv len).getD (seqRem o iv + (len - 1)) 0 := by
    rw [xorBytes_getD _ _ _ _ _ _ (by omega), if_pos (by omega), Nat.sub_zero]
  refine ⟨_, _, do_aes_ok o P tc iv data len enc k hk hP h1 hdata, hx, ?_, ?_, ?_, ?_⟩
  · rw [hx]
    exact Nat.xor_lt_two_pow (n := 8) hb hks
  · rw [← csumAdded_odd o _ len hodd]
  · intro ho
    subst ho
    exact oddInt_little _
  · intro w
    exact fold_odd o w _

/-- C16 amended, at key of 16 zero bytes, sequence 0 and the bytes `1 2 3`. -/
theorem C16_odd_length_witness :
    3 % 2 = 1 ∧ 3 ≤ [1, 2, 3].length ∧ [1, 2, 3].getD (3 - 1) 0 < 256 ∧
    (keystream .little toyPrimitive (List.replicate 16 0) (ivOfSeq 0) 3).getD
      (seqRem .little (ivOfSeq 0) + (3 - 1)) 0 < 256 ∧
    ∃ tc1 out, do_aes .little toyPrimitive (keyedTc (List.replicate 16 0) 5) (ivOfSeq 0)
        [1, 2, 3] 3 1 = .ok (tc1, out) ∧
      out.getD (3 - 1) 0 = [1, 2, 3].getD (3 - 1) 0 ^^^
        (keystream .little toyPrimitive (List.replicate 16 0) (ivOfSeq 0) 3).getD
          (seqRem .little (ivOfSeq 0) + (3 - 1)) 0 ∧
      out.getD (3 - 1) 0 < 256 ∧
      tc1.tc_csum = (5 + (wordsFrom .little out ((3 - 1) / 2) 0 +
        oddInt .little (out.getD (3 - 1) 0))) % 2 ^ 32 ∧
      (ByteOrder.little = .little → oddInt .little (out.getD (3 - 1) 0) = out.getD (3 - 1) 0) ∧
      (∀ w, onesFold (w + oddInt .little (out.getD (3 - 1) 0)) =
        onesFold (w + load .little [out.getD (3 - 1) 0, 0])) :=
  ⟨by decide, by decide, by decide, by decide,
    C16_odd_length .little toyPrimitive (keyedTc (List.replicate 16 0) 5) (ivOfSeq 0)
      [1, 2, 3] 3 1 (List.replicate 16 0) rfl (fun _ => rfl) (by decide) (by decide)
      (by decide) (by decide)⟩

/-- C19, as stated, fails on a big-endian host for odd `len`: with the stand-in
primitive, key of 16 zero bytes, sequence 0 and three zero bytes, the call
leaves `0x5c 0x5c 0x5c` and adds `0x5c5c + 0x5c000000` to a zero accumulator,
not the word `0x5c5c` plus the value `0x5c` of the last output byte. -/
theorem C19_counterexample :
    dataOf (aes_encrypt .big toyPrimitive (keyedTc (List.replicate 16 0) 0) (ivOfSeq 0)
      [0, 0, 0] 3) = some [0x5c, 0x5c, 0x5c] ∧
    csumOf (aes_encrypt .big toyPrimitive (keyedTc (List.replicate 16 0) 0) (ivOfSeq 0)
      [0, 0, 0] 3) = some (0x5c5c + 0x5c000000) ∧
    wordsFrom .big [0x5c, 0x5c, 0x5c] (3 / 2) 0 + [0x5c, 0x5c, 0x5c].getD (3 - 1) 0
      = 0x5c5c + 0x5c ∧
    (0x5c5c + 0x5c000000 : Nat) ≠ 0x5c5c + 0x5c := by
  set_option maxRecDepth 100000 in decide

/-- C19, amended. In both directions the checksum is taken over the buffer as
it stands after the XOR: whenever `do_aes` returns the span `out`, whatever the
`enc` flag, the accumulator has grown (modulo `2^32`) by `csumAdded o out len`,
a function of the host byte order, `out` and `len` alone: the plain sum of the
`len / 2` host-order 16-bit words of `out` plus, for odd `len`, the last byte of
`out` placed in the first byte of a zeroed `int`. On a little-endian host that
term is the value of the byte; on either host the amount folds (ones'
complement) to the word sum of `out` with the odd byte zero-padded. -/
theorem C19_checksum_after_xor {K S : Type} (o : ByteOrder) (P : Primitive K) (tc : Tc K S)
    (iv data : List Nat) (len enc : Nat) (tc1 : Tc K S) (out : List Nat)
    (h : do_aes o P tc iv data len enc = .ok (tc1, out)) :
    tc1.tc_csum = (tc.tc_csum + csumAdded o out len) % 2 ^ 32 ∧
    csumAdded o out len = wordsFrom o out (len / 2) 0 +
      (if len % 2 = 1 then oddInt o (out.getD (len - 1) 0) else 0) ∧
    (o = .little → csumAdded o out len = wordsFrom o out (len / 2) 0 +
      (if len % 2 = 1 then out.getD (len - 1) 0 else 0)) ∧
    onesFold (csumAdded o out len) = onesFold (paddedWordSum o out len) := by
  refine ⟨do_aes_csum o P tc iv data len enc tc1 out h, rfl, ?_, ?_⟩
  · intro ho
    subst ho
    simp only [csumAdded, oddInt_little]
  · unfold csumAdded paddedWordSum
    split_ifs
    · exact fold_odd o _ _
    · rfl

/-- C19 amended, at key of 16 zero bytes, sequence 0, accumulator 5 and the
bytes `1 2 3` on a little-endian host. -/
theorem C19_checksum_after_xor_witness :
    do_aes .little toyPrimitive (keyedTc (List.replicate 16 0) 5) (ivOfSeq 0) [1, 2, 3] 3 0
      = .ok (keyedTc (List.replicate 16 0) 24257, [93, 94, 95]) ∧
    (keyedTc (List.replicate 16 0) 24257).tc_csum =
      (5 + csumAdded .little [93, 94, 95] 3) % 2 ^ 32 :=
  have h : do_aes .little toyPrimitive (keyedTc (List.replicate 16 0) 5) (ivOfSeq 0) [1, 2, 3]
      3 0 = .ok (keyedTc (List.replicate 16 0) 24257, [93, 94, 95]) := by
    set_option maxRecDepth 100000 in rfl
  ⟨h, (C19_checksum_after_xor .little toyPrimitive (keyedTc (List.replicate 16 0) 5)
    (ivOfSeq 0) [1, 2, 3] 3 0 _ _ h).1⟩

/-! ### The memory a stopped call leaves -/

/-- The two embeddings of `do_aes` agree: the result is the outcome, with the
memory dropped on a fault. -/
theorem do_aes_mem_result {K S : Type} (o : ByteOrder) (P : Primitive K) (tc : Tc K S)
    (iv data : List Nat) (len enc : Nat) :
    (do_aes_mem o P tc iv data len enc).result = do_aes o P tc iv data len enc := by
  unfold do_aes_mem do_aes
  simp only
  split_ifs <;> try rfl
  all_goals split <;> try rfl
  all_goals split <;> try rfl
  all_goals split_ifs <;> rfl

/-- C17. Zero-length input is rejected atomically: with `len == 0`,
`aes_encrypt` and `aes_decrypt` stop on the assertion whatever the context, the
sequence bytes and the span are, and the memory they leave is the memory they
found: `tc` (with `tc_csum`) and the span are unchanged. The memory-carrying
embedding is the same function: dropping the memory gives the result of
`aes_encrypt` and `aes_decrypt` at every `len`. On a keyed context whose
primitive does not fail, every call with `len >= 1` on a span of at least `len`
bytes returns. -/
theorem C17_zero_length {K S : Type} (o : ByteOrder) (P : Primitive K) (tc : Tc K S)
    (iv data : List Nat) :
    aes_encrypt o P tc iv data 0 = .error .assertion ∧
    aes_decrypt o P tc iv data 0 = .error .assertion ∧
    aes_encrypt_mem o P tc iv data 0 = { fault := some .assertion, tc := tc, data := data } ∧
    aes_decrypt_mem o P tc iv data 0 = { fault := some .assertion, tc := tc, data := data } ∧
    (∀ len, (aes_encrypt_mem o P tc iv data len).result = aes_encrypt o P tc iv data len ∧
      (aes_decrypt_mem o P tc iv data len).result.map (fun r => (r.1, r.2, len)) =
        aes_decrypt o P tc iv data len) ∧
    (∀ (len : Nat) (k : K), tc.priv.bind (fun ap => ap.ap_ctx) = some k →
      (∀ buf, P.updateOk k buf = true) → 1 ≤ len → len ≤ data.length →
      (∃ r, aes_encrypt o P tc iv data len = .ok r) ∧
      (∃ r, aes_decrypt o P tc iv data len = .ok r) ∧
      (aes_encrypt_mem o P tc iv data len).fault = none ∧
      (aes_decrypt_mem o P tc iv data len).fault = none) := by
  have hres : ∀ len enc, (do_aes_mem o P tc iv data len enc).fault = none ↔
      ∃ r, do_aes o P tc iv data len enc = .ok r := by
    intro len enc
    rw [← do_aes_mem_result]
    unfold Outcome.result
    cases (do_aes_mem o P tc iv data len enc).fault with
    | none => simp
    | some e => simp
  refine ⟨rfl, rfl, rfl, rfl, ?_, ?_⟩
  · intro len
    refine ⟨do_aes_mem_result o P tc iv data len 1, ?_⟩
    unfold aes_decrypt_mem aes_decrypt
    rw [do_aes_mem_result]
    cases do_aes o P tc iv data len 0 with
    | error e => rfl
    | ok r => rfl
  · intro len k hk hP h1 hdata
    have he := do_aes_ok o P tc iv data len 1 k hk hP h1 hdata
    have hd := do_aes_ok o P tc iv data len 0 k hk hP h1 hdata
    refine ⟨⟨_, he⟩, ?_, (hres len 1).mpr ⟨_, he⟩, (hres len 0).mpr ⟨_, hd⟩⟩
    unfold aes_decrypt
    rw [hd]
    exact ⟨_, rfl⟩

/-- C17, at key of 16 zero bytes, accumulator 7, sequence 0 and 20 bytes `0xAA`. -/
theorem C17_zero_length_witness :
    aes_encrypt_mem .little toyPrimitive (keyedTc (List.replicate 16 0) 7) (ivOfSeq 0)
      (List.replicate 20 0xAA) 0 =
      { fault := some .assertion, tc := keyedTc (List.replicate 16 0) 7,
        data := List.replicate 20 0xAA } ∧
    1 ≤ 20 ∧ 20 ≤ (List.replicate 20 0xAA).length ∧
    (∃ r, aes_encrypt .little toyPrimitive (keyedTc (List.replicate 16 0) 7) (ivOfSeq 0)
      (List.replicate 20 0xAA) 20 = .ok r) ∧
    (∃ r, aes_decrypt .little toyPrimitive (keyedTc (List.replicate 16 0) 7) (ivOfSeq 0)
      (List.replicate 20 0xAA) 20 = .ok r) ∧
    (aes_encrypt_mem .little toyPrimitive (keyedTc (List.replicate 16 0) 7) (ivOfSeq 0)
      (List.replicate 20 0xAA) 20).fault = none ∧
    (aes_decrypt_mem .little toyPrimitive (keyedTc (List.replicate 16 0) 7) (ivOfSeq 0)
      (List.replicate 20 0xAA) 20).fault = none :=
  have h := C17_zero_length .little toyPrimitive (keyedTc (List.replicate 16 0) 7) (ivOfSeq 0)
    (List.replicate 20 0xAA)
  ⟨h.2.2.1, by decide, by decide,
    h.2.2.2.2.2 20 (List.replicate 16 0) rfl (fun _ => rfl) (by decide) (by decide)⟩

end TcpCrypt
